import Mathlib

/-!
Gamma-corrected Gaussian smoothing filter.

A shallow embedding of `src/gstsmoothingfilter.c` and `src/gstsmoothingfilter.h`.

* C `double` values are modelled by the elements of an ordered field `F` with a floor
  function, and the operations on `double` values are exact.  A value that the code computes
  or stores as a `float` (the product `sigma * sigma`, the quotient that is the argument of
  `exp`, every store into the kernel) is converted by `m.toFloat`.  The two `math.h` functions
  `exp` and `pow` and this conversion are a parameter `m : Libm F`.  All definitions of the
  model are computable (they run at `F = ℚ`); the numerical statements are made at `F = ℝ`
  with the real exponential, the real power function and the conversion `float32` to IEEE 754
  binary32.
* `gint` values are integers (`Int`); the products `width * 3`, `pitch * y` and `i * pitch`,
  which the code computes in `gint`, are reduced to 32 bits by `wrap32`.  Bytes of the mapped
  image are natural numbers, stored modulo `256`.
* The mapped image is a list of bytes.  A read or write outside the list, a read through the
  `NULL` kernel pointer and a read outside a table make the operation return `none`.
-/

set_option linter.unusedSectionVars false

namespace Smoothing

/-- The floating point operations that the model takes as parameters: the two `math.h`
functions used by the filter, `exp` and `pow`, and the conversion of a value to `float`. -/
structure Libm (F : Type) where
  /-- The function `exp(x)` of `math.h`. -/
  exp : F → F
  /-- The function `pow(x, y)` of `math.h`. -/
  pow : F → F → F
  /-- The conversion of a value to `float`, made when a `float` object is stored and when an
  operation is evaluated in `float`. -/
  toFloat : F → F

/-- The instance structure `struct _Gstsmoothingfilter`, without the pads. -/
structure Gstsmoothingfilter (F : Type) where
  /-- Field `gint kernelsize`. -/
  kernelsize : Int
  /-- Field `gfloat sigma`. -/
  sigma : F
  /-- Field `float *smoothing_buffer`: memory to store the kernel, `none` for `NULL`. -/
  smoothing_buffer : Option (List F)
  /-- Field `gint width`. -/
  width : Int
  /-- Field `gint height`. -/
  height : Int
  /-- Field `gint stride`: bytes to next line. -/
  stride : Int
  /-- Field `gint valchanged`: something has changed and the kernel should be recalculated. -/
  valchanged : Int
  /-- Field `double *forward_gamma`. -/
  forward_gamma : List F
  /-- Field `unsigned int *inverse_gamma`. -/
  inverse_gamma : List Nat

section Model

variable {F : Type} [LinearOrderedField F] [FloorRing F]

/-- Header constant `#define GAMMA 2.22`. -/
def GAMMA (F : Type) [LinearOrderedField F] : F := 222 / 100

/-- Header constant `#define OFFSET 0.099`. -/
def OFFSET (F : Type) [LinearOrderedField F] : F := 99 / 1000

/-- Header constant `#define FACTOR 283.02`. -/
def FACTOR (F : Type) [LinearOrderedField F] : F := 28302 / 100

/-- Header constant `#define IN_RANGE 256`. -/
def IN_RANGE : Nat := 256

/-- Header constant `#define OUT_RANGE 4096`. -/
def OUT_RANGE : Nat := 4096

/-- Constant `#define DEFAULT_PROP_KERNELSIZE 1`. -/
def DEFAULT_PROP_KERNELSIZE : Int := 1

/-- Constant `#define DEFAULT_PROP_SIGMA 1.5`. -/
def DEFAULT_PROP_SIGMA (F : Type) [LinearOrderedField F] : F := 15 / 10

/-- The value of a `gint` product: the mathematical result reduced to 32 bits in two's
complement.  (The overflow of a signed product is undefined in C; the compiled code wraps.) -/
def wrap32 (n : Int) : Int := (n + 2147483648) % 4294967296 - 2147483648

/-- The C conversion of a `double` to an integer type: truncation toward zero. -/
def trunc (x : F) : Int := if 0 ≤ x then ⌊x⌋ else ⌈x⌉

/-- Function `create_gamma_lut`: both tables are filled entry by entry, in index order. -/
def create_gamma_lut (m : Libm F) (filter : Gstsmoothingfilter F) : Gstsmoothingfilter F :=
  let invgamma : F := 1 / GAMMA F
  { filter with
    forward_gamma := (List.range IN_RANGE).map fun (i : Nat) =>
      (OUT_RANGE : F) * m.pow ((i : F) / FACTOR F + OFFSET F) (GAMMA F)
    inverse_gamma := (List.range OUT_RANGE).map fun (i : Nat) =>
      (trunc ((IN_RANGE : F) * m.pow ((i : F) / (OUT_RANGE : F)) invgamma)).toNat }

/-- Function `gst_smoothingfilter_init`: the instance memory is zero-filled by GObject, then
the defaults are stored, the kernel pointer is `NULL`, the flag is set and the tables are
built. -/
def gst_smoothingfilter_init (m : Libm F) : Gstsmoothingfilter F :=
  create_gamma_lut m
    { kernelsize := DEFAULT_PROP_KERNELSIZE
      sigma := DEFAULT_PROP_SIGMA F
      smoothing_buffer := none
      width := 0
      height := 0
      stride := 0
      valchanged := 1
      forward_gamma := []
      inverse_gamma := [] }

/-- The property identifier and value handed to `gst_smoothingfilter_set_property`. -/
inductive Property (F : Type) where
  /-- Identifier `PROP_KERNELSIZE` with its `int` value. -/
  | PROP_KERNELSIZE (val : Int)
  /-- Identifier `PROP_SIGMA` with its `float` value. -/
  | PROP_SIGMA (val : F)
  /-- Any other identifier: the `default` branch, which only warns. -/
  | PROP_0

/-- Function `gst_smoothingfilter_set_property`. -/
def gst_smoothingfilter_set_property (filter : Gstsmoothingfilter F) :
    Property F → Gstsmoothingfilter F
  | .PROP_KERNELSIZE val =>
    if filter.kernelsize ≠ val then { filter with kernelsize := val, valchanged := 1 }
    else filter
  | .PROP_SIGMA val =>
    if filter.sigma ≠ val then { filter with sigma := val, valchanged := 1 }
    else filter
  | .PROP_0 => filter

/-- The operation `configure(kernelsize, sigma)` of the engine: the host sets the two
properties, one call of `gst_smoothingfilter_set_property` each. -/
def configure (filter : Gstsmoothingfilter F) (kernelsize : Int) (sigma : F) :
    Gstsmoothingfilter F :=
  gst_smoothingfilter_set_property
    (gst_smoothingfilter_set_property filter (.PROP_KERNELSIZE kernelsize)) (.PROP_SIGMA sigma)

/-- The `GST_EVENT_CAPS` branch of `gst_smoothingfilter_sink_event` for fixed caps:
`gst_structure_get_int` stores a field that is present and leaves the target alone when it is
absent (the `||` skips the height when the width is absent); the stride is then set to the
`gint` product `width * 3`. -/
def gst_smoothingfilter_sink_event (filter : Gstsmoothingfilter F)
    (width height : Option Int) : Gstsmoothingfilter F :=
  let filter :=
    match width, height with
    | none, _ => filter
    | some w, none => { filter with width := w }
    | some w, some h => { filter with width := w, height := h }
  { filter with stride := wrap32 (filter.width * 3) }

/-- The first pair of loops of the kernel block of `gst_smoothingfilter_chain`.  The product
`sigma * sigma` of two `gfloat` values and its quotient with the integer `-(ii*ii+jj*jj)` are
`float` values; `f` and `sum` are `double`; the store into `smoothing_buffer[i*s+j]`
converts `f` to `float`, and `sum` adds up the `double` values. -/
def kernel_fill (m : Libm F) (kernelsize : Int) (sigma : F) (s : Nat)
    (smoothing_buffer : List F) : List F × F :=
  (List.range s).foldl (fun st (i : Nat) =>
    (List.range s).foldl (fun st (j : Nat) =>
      let ii : Int := (i : Int) - kernelsize
      let jj : Int := (j : Int) - kernelsize
      let f : F :=
        m.exp (m.toFloat (-((ii * ii + jj * jj : Int) : F) / m.toFloat (sigma * sigma)))
      (st.1.set (i * s + j) (m.toFloat f), st.2 + f)) st) (smoothing_buffer, 0)

/-- The second pair of loops of the kernel block: `smoothing_buffer[i*s+j] /= sum`, a division
in `double` whose result is converted to `float` by the store. -/
def kernel_normalise (m : Libm F) (s : Nat) (sum : F) (smoothing_buffer : List F) : List F :=
  (List.range s).foldl (fun buf (i : Nat) =>
    (List.range s).foldl (fun buf (j : Nat) =>
      buf.set (i * s + j) (m.toFloat (buf.getD (i * s + j) 0 / sum))) buf) smoothing_buffer

/-- The block `if (filter->valchanged) ...` of `gst_smoothingfilter_chain`, entered with the
flag set: the kernel memory is released and allocated anew (`g_malloc` ends the process
rather than return `NULL` for a size that is not zero, so the failure branch is never taken;
the fresh memory is modelled by zeros, and every entry of it is overwritten), filled,
normalised, and the flag is cleared. -/
def recompute_kernel (m : Libm F) (filter : Gstsmoothingfilter F) : Gstsmoothingfilter F :=
  let s : Nat := (2 * filter.kernelsize + 1).toNat
  let fresh : List F := List.replicate (s * s) 0
  let filled := kernel_fill m filter.kernelsize filter.sigma s fresh
  { filter with
    smoothing_buffer := some (kernel_normalise m s filled.2 filled.1)
    valchanged := 0 }

/-- The macro use `CLAMP((ptr)->b, 0, in_limit)` on a byte of the image. -/
def clamp_in (b : Nat) : Nat := if b > IN_RANGE - 1 then IN_RANGE - 1 else if b < 0 then 0 else b

/-- The macro use `(unsigned int)CLAMP(valb, 0, out_limit)`: `out_limit` is unsigned, so the
first comparison of the macro is made on the accumulator converted to `unsigned int`. -/
def clamp_out (val : Int) : Nat :=
  if val % 4294967296 > ((OUT_RANGE - 1 : Nat) : Int) then OUT_RANGE - 1
  else if val < 0 then 0 else val.toNat

/-- Read of channel `c` (`0` for `b`, `1` for `g`, `2` for `r`) of the `bgr_pixel` at pixel
index `p` of the image. -/
def load (img : List Nat) (p : Int) (c : Nat) : Option Nat :=
  if p < 0 then none else img[3 * p.toNat + c]?

/-- Write of channel `c` of the `bgr_pixel` at pixel index `p`: the value is converted to
`guint8`. -/
def store (img : List Nat) (p : Int) (c : Nat) (v : Nat) : Option (List Nat) :=
  if p < 0 then none
  else if 3 * p.toNat + c < img.length then some (img.set (3 * p.toNat + c) (v % 256))
  else none

/-- One statement `val += forward_gamma[CLAMP((p)->c, 0, in_limit)] * smoothing_buffer[k]`:
the sum is made in `double` and converted back to the `gint` accumulator. -/
def tap (filter : Gstsmoothingfilter F) (img : List Nat) (p : Int) (c : Nat) (k : Nat)
    (val : Int) : Option Int := do
  let px ← load img p c
  let g ← filter.forward_gamma[clamp_in px]?
  let kernel ← filter.smoothing_buffer
  let w ← kernel[k]?
  pure (trunc ((val : F) + g * w))

/-- The three accumulators `valb`, `valg`, `valr`. -/
structure Acc where
  /-- Accumulator `valb`. -/
  valb : Int
  /-- Accumulator `valg`. -/
  valg : Int
  /-- Accumulator `valr`. -/
  valr : Int
deriving DecidableEq, Repr

/-- The three statements for one kernel entry `k` at pixel `p`: `valb += ...`, `valg += ...`,
`valr += ...`. -/
def taps (filter : Gstsmoothingfilter F) (img : List Nat) (p : Int) (k : Nat) (a : Acc) :
    Option Acc := do
  let valb ← tap filter img p 0 k a.valb
  let valg ← tap filter img p 1 k a.valg
  let valr ← tap filter img p 2 k a.valr
  pure ⟨valb, valg, valr⟩

/-- The three statements `ptr->b = inverse_gamma[(unsigned int)CLAMP(valb, 0, out_limit)]`,
then `g`, then `r`. -/
def write_back (filter : Gstsmoothingfilter F) (img : List Nat) (ptr : Int) (a : Acc) :
    Option (List Nat) := do
  let b ← filter.inverse_gamma[clamp_out a.valb]?
  let img ← store img ptr 0 b
  let g ← filter.inverse_gamma[clamp_out a.valg]?
  let img ← store img ptr 1 g
  let r ← filter.inverse_gamma[clamp_out a.valr]?
  store img ptr 2 r

/-- The body of the inner loop of the fast 3x3 implementation: the nine kernel entries are
visited column by column (`0, 3, 6`, then `1, 4, 7`, then `2, 5, 8`). -/
def fast_pixel (filter : Gstsmoothingfilter F) (pitch : Int) (img : List Nat) (ptr : Int) :
    Option (List Nat) := do
  let a : Acc := ⟨0, 0, 0⟩
  let ptr2 := ptr
  let ptr3 := ptr2 + pitch
  let ptr4 := ptr3 + pitch
  let a ← taps filter img ptr2 0 a
  let a ← taps filter img ptr3 3 a
  let a ← taps filter img ptr4 6 a
  let ptr2 := ptr2 + 1
  let ptr3 := ptr2 + pitch
  let ptr4 := ptr3 + pitch
  let a ← taps filter img ptr2 1 a
  let a ← taps filter img ptr3 4 a
  let a ← taps filter img ptr4 7 a
  let ptr2 := ptr2 + 1
  let ptr3 := ptr2 + pitch
  let ptr4 := ptr3 + pitch
  let a ← taps filter img ptr2 2 a
  let a ← taps filter img ptr3 5 a
  let a ← taps filter img ptr4 8 a
  write_back filter img ptr a

/-- The body of the inner loop of the generic implementation: the kernel entries are visited
row by row by the loops on `i` and `j`; the pixel read is `ptr + i*pitch + j`, with the
product `i*pitch` computed in `gint`. -/
def generic_pixel (filter : Gstsmoothingfilter F) (s : Nat) (pitch : Int) (img : List Nat)
    (ptr : Int) : Option (List Nat) := do
  let a ← (List.range s).foldlM (fun a (i : Nat) =>
    (List.range s).foldlM (fun a (j : Nat) =>
      taps filter img (ptr + wrap32 ((i : Int) * pitch) + (j : Int)) (i * s + j) a) a)
    (⟨0, 0, 0⟩ : Acc)
  write_back filter img ptr a

/-- The branch `if (filter->kernelsize==1)` of `gst_smoothingfilter_chain`: the loops on `y`
and `x` of the fast 3x3 implementation.  The pointer to the start of a line is
`img_ptr + pitch * y`, with the product computed in `gint`, and it advances by one pixel for
each `x`. -/
def convolve_fast (filter : Gstsmoothingfilter F) (s : Nat) (pitch : Int) (img : List Nat) :
    Option (List Nat) :=
  let stop_y : Int := filter.height - s
  let stop_x : Int := filter.width - s
  (List.range stop_y.toNat).foldlM (fun img (y : Nat) =>
    (List.range stop_x.toNat).foldlM (fun img (x : Nat) =>
      fast_pixel filter pitch img (wrap32 (pitch * (y : Int)) + (x : Int))) img) img

/-- The `else` branch: the loops on `y` and `x` of the generic implementation. -/
def convolve_generic (filter : Gstsmoothingfilter F) (s : Nat) (pitch : Int) (img : List Nat) :
    Option (List Nat) :=
  let stop_y : Int := filter.height - s
  let stop_x : Int := filter.width - s
  (List.range stop_y.toNat).foldlM (fun img (y : Nat) =>
    (List.range stop_x.toNat).foldlM (fun img (x : Nat) =>
      generic_pixel filter s pitch img (wrap32 (pitch * (y : Int)) + (x : Int))) img) img

/-- What one call of `gst_smoothingfilter_chain` leaves behind. -/
structure ChainResult (F : Type) where
  /-- The filter instance after the call. -/
  filter : Gstsmoothingfilter F
  /-- The bytes of the buffer pushed on the source pad. -/
  img : List Nat
  /-- Whether the kernel block (the one that logs `malloc kernel`) was executed. -/
  recomputed : Bool

/-- Function `gst_smoothingfilter_chain`, the operation `processFrame` of the engine, on the
bytes `img` of the mapped buffer. -/
def gst_smoothingfilter_chain (m : Libm F) (filter : Gstsmoothingfilter F) (img : List Nat) :
    Option (ChainResult F) :=
  if filter.kernelsize = 0 then
    some ⟨filter, img, false⟩
  else
    let s : Nat := (2 * filter.kernelsize + 1).toNat
    let pitch : Int := filter.stride.tdiv 3
    let recomputed : Bool := decide (filter.valchanged ≠ 0)
    let filter := if filter.valchanged ≠ 0 then recompute_kernel m filter else filter
    if filter.kernelsize = 1 then
      (convolve_fast filter s pitch img).map fun img => ⟨filter, img, recomputed⟩
    else
      (convolve_generic filter s pitch img).map fun img => ⟨filter, img, recomputed⟩

end Model

section Aux

variable {F : Type} [LinearOrderedField F] [FloorRing F]

/-- The product `forward_gamma[CLAMP((p)->c, 0, in_limit)] * smoothing_buffer[k]` read by one
statement of the convolution, `none` when one of its reads is out of bounds. -/
def tapOpt (filter : Gstsmoothingfilter F) (img : List Nat) (p : Int) (c : Nat) (k : Nat) :
    Option F := do
  let px ← load img p c
  let g ← filter.forward_gamma[clamp_in px]?
  let kernel ← filter.smoothing_buffer
  let w ← kernel[k]?
  pure (g * w)

/-- The product read by one statement of the convolution, `0` when a read is out of bounds. -/
def tapVal (filter : Gstsmoothingfilter F) (img : List Nat) (c : Nat) (t : Int × Nat) : F :=
  (tapOpt filter img t.1 c t.2).getD 0

/-- All reads of the three statements for the kernel entry `t.2` at pixel `t.1` are in
bounds. -/
def tapsOk (filter : Gstsmoothingfilter F) (img : List Nat) (t : Int × Nat) : Bool :=
  (tapOpt filter img t.1 0 t.2).isSome && (tapOpt filter img t.1 1 t.2).isSome
    && (tapOpt filter img t.1 2 t.2).isSome

/-- The effect of the three statements for one kernel entry on the accumulators. -/
def addTaps (filter : Gstsmoothingfilter F) (img : List Nat) (a : Acc) (t : Int × Nat) : Acc :=
  ⟨trunc ((a.valb : F) + tapVal filter img 0 t), trunc ((a.valg : F) + tapVal filter img 1 t),
    trunc ((a.valr : F) + tapVal filter img 2 t)⟩

/-- The pixel and kernel indices visited by the fast 3x3 implementation, in its order. -/
def fastTaps (pitch ptr : Int) : List (Int × Nat) :=
  [(ptr, 0), (ptr + pitch, 3), (ptr + pitch + pitch, 6),
   (ptr + 1, 1), (ptr + 1 + pitch, 4), (ptr + 1 + pitch + pitch, 7),
   (ptr + 1 + 1, 2), (ptr + 1 + 1 + pitch, 5), (ptr + 1 + 1 + pitch + pitch, 8)]

/-- The pixel and kernel indices visited by the generic implementation, in its order, when
no product `i * pitch` overflows. -/
def genericTaps (s : Nat) (pitch ptr : Int) : List (Int × Nat) :=
  (List.range s).flatMap fun (i : Nat) => (List.range s).map fun (j : Nat) =>
    (ptr + (i : Int) * pitch + (j : Int), i * s + j)

/-- Every entry of the forward table and of the kernel is non-negative. -/
def NonnegTables (filter : Gstsmoothingfilter F) : Prop :=
  (∀ g ∈ filter.forward_gamma, 0 ≤ g) ∧
    ∀ K, filter.smoothing_buffer = some K → ∀ w ∈ K, 0 ≤ w

/-- The image after the three channel bytes of pixel `p` have been overwritten. -/
def setPixel (img : List Nat) (p : Nat) (b g r : Nat) : List Nat :=
  ((img.set (3 * p) b).set (3 * p + 1) g).set (3 * p + 2) r

/-- The byte that the convolution stores in channel `c` for a pixel whose kernel entries are
`ts`, computed on the image `img`: the integer parts of the products are added up, the sum is
clamped and looked up in the inverse table, and the result is converted to `guint8`. -/
def outByte (filter : Gstsmoothingfilter F) (img : List Nat) (ts : List (Int × Nat))
    (c : Nat) : Nat :=
  filter.inverse_gamma.getD (clamp_out (ts.map fun t => ⌊tapVal filter img c t⌋).sum) 0 % 256

/-- The Gaussian value `f` (a `double`) that the kernel block computes for the entry
`(i, j)`: the exponential of the `float` quotient of `-(ii*ii+jj*jj)` and the `float` product
`sigma * sigma`. -/
def gauss (m : Libm F) (kernelsize : Int) (sigma : F) (i j : Nat) : F :=
  m.exp (m.toFloat (-(((((i : Int) - kernelsize) * ((i : Int) - kernelsize)
    + ((j : Int) - kernelsize) * ((j : Int) - kernelsize) : Int)) : F)
      / m.toFloat (sigma * sigma)))

/-- The Gaussian values of a kernel of side `2 * kernelsize + 1`, row by row. -/
def gaussRaw (m : Libm F) (kernelsize : Int) (sigma : F) : List F :=
  let s : Nat := (2 * kernelsize + 1).toNat
  (List.range (s * s)).map fun n => gauss m kernelsize sigma (n / s) (n % s)

/-- The normalised Gaussian kernel as the kernel block stores it: every value is converted to
`float`, divided by the sum of all `double` values, and converted to `float` again. -/
def gaussKernel (m : Libm F) (kernelsize : Int) (sigma : F) : List F :=
  (gaussRaw m kernelsize sigma).map fun f =>
    m.toFloat (m.toFloat f / (gaussRaw m kernelsize sigma).sum)

/-- Rounding to the nearest integer, ties to the even one. -/
def roundHalfEven (q : F) : Int :=
  if q - (⌊q⌋ : F) < 1 / 2 then ⌊q⌋
  else if 1 / 2 < q - (⌊q⌋ : F) then ⌊q⌋ + 1
  else if ⌊q⌋ % 2 = 0 then ⌊q⌋ else ⌊q⌋ + 1

/-- The conversion of a value to IEEE 754 binary32 (`float`) in the default rounding mode,
to nearest with ties to even: the value is rounded to a multiple of `2 ^ (e - 23)`, where `e`
is the binary exponent of the value, at least `-126` (below `2 ^ (-126)` the values are
subnormal).  Overflow to infinity is not modelled: no value of the filter comes near
`2 ^ 128`. -/
def float32 (x : F) : F :=
  (roundHalfEven (x / (2 : F) ^ (max (Int.log 2 |x|) (-126) - 23)) : F)
    * (2 : F) ^ (max (Int.log 2 |x|) (-126) - 23)

/-- What the statements assume of the floating point operations: `exp` is positive, is `1`
at `0` and at most `1` on arguments that are not positive; `pow` of a base in `[0, 1]` with a
non-negative exponent lies in `[0, 1]`; the conversion to `float` keeps the sign, maps a value
that is at most `1` to a value that is at most `1`, and moves a value `x` of size up to
`2 ^ 100` by at most `|x| / 2 ^ 24 + 1 / 2 ^ 150` (half a unit in the last place of a normal
`float`, half the least subnormal `float`). -/
structure Libm.Sound (m : Libm F) : Prop where
  /-- The exponential is positive. -/
  exp_pos : ∀ x, 0 < m.exp x
  /-- The exponential of `0` is `1`. -/
  exp_zero : m.exp 0 = 1
  /-- The exponential of an argument that is not positive is at most `1`. -/
  exp_le_one : ∀ x, x ≤ 0 → m.exp x ≤ 1
  /-- The conversion to `float` of a non-negative value is non-negative. -/
  float_nonneg : ∀ x, 0 ≤ x → 0 ≤ m.toFloat x
  /-- The conversion to `float` of a value that is not positive is not positive. -/
  float_nonpos : ∀ x, x ≤ 0 → m.toFloat x ≤ 0
  /-- The conversion to `float` of a value that is at most `1` is at most `1`. -/
  float_le_one : ∀ x, x ≤ 1 → m.toFloat x ≤ 1
  /-- The error of the conversion to `float`. -/
  float_err : ∀ x, |x| ≤ 2 ^ 100 → |m.toFloat x - x| ≤ |x| / 2 ^ 24 + 1 / 2 ^ 150
  /-- A power of a non-negative base is non-negative. -/
  pow_nonneg : ∀ x y, 0 ≤ x → 0 ≤ m.pow x y
  /-- A non-negative power of a base in `[0, 1]` is at most `1`. -/
  pow_le_one : ∀ x y, 0 ≤ x → x ≤ 1 → 0 ≤ y → m.pow x y ≤ 1

/-- The states of the filter instance that the element can be in: the state after
`gst_smoothingfilter_init`, and every state obtained from such a state by setting a property
to a value of its declared range (`kernelsize` in `0 .. 2`, `sigma` in `0.1 .. 100`), by a
caps event, or by a call of the chain function that returns. -/
inductive Reachable (m : Libm F) : Gstsmoothingfilter F → Prop where
  /-- The state after `gst_smoothingfilter_init`. -/
  | init : Reachable m (gst_smoothingfilter_init m)
  /-- Property `kernelsize` set to a value of its range. -/
  | set_kernelsize {filter : Gstsmoothingfilter F} (val : Int) :
      Reachable m filter → 0 ≤ val → val ≤ 2 →
      Reachable m (gst_smoothingfilter_set_property filter (.PROP_KERNELSIZE val))
  /-- Property `sigma` set to a value of its range. -/
  | set_sigma {filter : Gstsmoothingfilter F} (val : F) :
      Reachable m filter → 1 / 10 ≤ val → val ≤ 100 →
      Reachable m (gst_smoothingfilter_set_property filter (.PROP_SIGMA val))
  /-- A caps event. -/
  | caps {filter : Gstsmoothingfilter F} (width height : Option Int) :
      Reachable m filter → Reachable m (gst_smoothingfilter_sink_event filter width height)
  /-- A call of the chain function. -/
  | chain {filter : Gstsmoothingfilter F} (img : List Nat) (r : ChainResult F) :
      Reachable m filter → gst_smoothingfilter_chain m filter img = some r →
      Reachable m r.filter

/-- The filter instance after the kernel block of the chain function: untouched when
`kernelsize` is `0` or the flag is clear, recomputed otherwise. -/
def kernel_stage (m : Libm F) (filter : Gstsmoothingfilter F) : Gstsmoothingfilter F :=
  if filter.kernelsize = 0 then filter
  else if filter.valchanged ≠ 0 then recompute_kernel m filter else filter

/-- The facts that hold of every reachable state of the filter instance. -/
structure Invariant (m : Libm F) (filter : Gstsmoothingfilter F) : Prop where
  /-- The kernel size index is in its declared range. -/
  kernelsize_range : 0 ≤ filter.kernelsize ∧ filter.kernelsize ≤ 2
  /-- The value of sigma is in its declared range. -/
  sigma_range : 1 / 10 ≤ filter.sigma ∧ filter.sigma ≤ 100
  /-- The forward table is the one built at initialisation. -/
  forward : filter.forward_gamma = (gst_smoothingfilter_init m).forward_gamma
  /-- The inverse table is the one built at initialisation. -/
  inverse : filter.inverse_gamma = (gst_smoothingfilter_init m).inverse_gamma
  /-- The stride is the `gint` product of the width and `3`. -/
  stride : filter.stride = wrap32 (filter.width * 3)
  /-- When the flag is clear the stored kernel is the kernel of the stored parameters. -/
  clean : filter.valchanged = 0 →
    filter.smoothing_buffer = some (gaussKernel m filter.kernelsize filter.sigma)

/-- The pixel indices `pitch * y + x` visited by the loops on `y` and `x`, in their order,
when no product `pitch * y` overflows. -/
def rasterPtrs (pitch : Int) (stop_y stop_x : Nat) : List Int :=
  (List.range stop_y).flatMap fun (y : Nat) => (List.range stop_x).map fun (x : Nat) =>
    pitch * (y : Int) + (x : Int)

/-- The index, in the mapped buffer, of the byte of channel `c` of the pixel in column `x`
and row `y`, for a frame of `width` pixels per row. -/
def byteIndex (width : Int) (x y c : Nat) : Nat :=
  3 * (width * (y : Int) + (x : Int)).toNat + c

/-- The tables of the filter are usable with a kernel of side `s`: both gamma tables have
their full size, the forward entries lie in `[0, 4096]`, and the kernel has `s * s` weights in
`[0, 1]`. -/
structure TablesOk (filter : Gstsmoothingfilter F) (s : Nat) : Prop where
  /-- The forward table has `IN_RANGE` entries. -/
  fg_len : filter.forward_gamma.length = 256
  /-- The inverse table has `OUT_RANGE` entries. -/
  ig_len : filter.inverse_gamma.length = 4096
  /-- The forward entries lie in `[0, 4096]`. -/
  fg_range : ∀ g ∈ filter.forward_gamma, 0 ≤ g ∧ g ≤ 4096
  /-- The kernel is allocated, has `s * s` weights, all in `[0, 1]`. -/
  kernel : ∃ K, filter.smoothing_buffer = some K ∧ K.length = s * s ∧ ∀ w ∈ K, 0 ≤ w ∧ w ≤ 1

end Aux

section Certificate

variable {F : Type} [LinearOrderedField F] [FloorRing F]

/-- The round trip of the two gamma tables: `inverse_gamma[clamp(round(forward_gamma[i]), 0,
4095)]`. -/
def roundTrip (filter : Gstsmoothingfilter F) (i : Nat) : Nat :=
  filter.inverse_gamma.getD
    (max 0 (min (round (filter.forward_gamma.getD i 0)) 4095)).toNat 0

/-- The values `round(4096 * (i / 283.02 + 0.099) ^ 2.22)` for `i` from `0` to `255`; they
are checked by `tableCertificate`. -/
def forwardRounded : List Nat :=
  [24, 26, 28, 30, 32, 35, 37, 40, 42, 45, 48, 50, 53, 56, 59, 63, 66, 69, 73, 76, 80, 84,
   87, 91, 95, 99, 104, 108, 112, 117, 121, 126, 131, 136, 141, 146, 151, 156, 162, 167, 173,
   179, 184, 190, 196, 202, 209, 215, 221, 228, 234, 241, 248, 255, 262, 269, 276, 284, 291,
   299, 306, 314, 322, 330, 338, 346, 355, 363, 372, 380, 389, 398, 407, 416, 425, 435, 444,
   453, 463, 473, 483, 493, 503, 513, 523, 534, 544, 555, 566, 577, 588, 599, 610, 621, 633,
   644, 656, 668, 680, 692, 704, 716, 728, 741, 754, 766, 779, 792, 805, 818, 832, 845, 859,
   872, 886, 900, 914, 928, 943, 957, 971, 986, 1001, 1016, 1031, 1046, 1061, 1076, 1092,
   1107, 1123, 1139, 1155, 1171, 1187, 1204, 1220, 1237, 1253, 1270, 1287, 1304, 1321, 1339,
   1356, 1374, 1391, 1409, 1427, 1445, 1463, 1482, 1500, 1519, 1537, 1556, 1575, 1594, 1613,
   1633, 1652, 1672, 1691, 1711, 1731, 1751, 1771, 1792, 1812, 1833, 1854, 1874, 1895, 1917,
   1938, 1959, 1981, 2002, 2024, 2046, 2068, 2090, 2112, 2135, 2157, 2180, 2203, 2225, 2249,
   2272, 2295, 2318, 2342, 2366, 2390, 2413, 2438, 2462, 2486, 2511, 2535, 2560, 2585, 2610,
   2635, 2660, 2686, 2711, 2737, 2763, 2789, 2815, 2841, 2867, 2894, 2920, 2947, 2974, 3001,
   3028, 3056, 3083, 3110, 3138, 3166, 3194, 3222, 3250, 3279, 3307, 3336, 3365, 3393, 3422,
   3452, 3481, 3510, 3540, 3570, 3600, 3630, 3660, 3690, 3720, 3751, 3782, 3812, 3843, 3874,
   3906, 3937, 3969, 4000, 4032, 4064, 4096]

/-- The values `floor(256 * (v / 4096) ^ (1 / 2.22))` at `v = min(forwardRounded[i], 4095)`
for `i` from `0` to `255`; they are checked by `tableCertificate`. -/
def roundTripTable : List Nat :=
  [25, 26, 27, 27, 28, 29, 30, 31, 32, 33, 34, 35, 36, 37, 37, 39, 39, 40, 41, 42, 43, 44,
   45, 46, 46, 47, 48, 49, 50, 51, 52, 53, 54, 55, 56, 57, 57, 58, 59, 60, 61, 62, 63, 64,
   65, 65, 67, 67, 68, 69, 70, 71, 72, 73, 74, 75, 75, 76, 77, 78, 79, 80, 81, 82, 83, 84,
   85, 85, 86, 87, 88, 89, 90, 91, 92, 93, 94, 94, 95, 96, 97, 98, 99, 100, 101, 102, 103,
   104, 104, 105, 106, 107, 108, 109, 110, 111, 112, 113, 114, 114, 115, 116, 117, 118, 119,
   120, 121, 122, 123, 123, 124, 125, 126, 127, 128, 129, 130, 131, 132, 132, 133, 134, 135,
   136, 137, 138, 139, 140, 141, 142, 142, 143, 144, 145, 146, 147, 148, 149, 150, 151, 151,
   152, 153, 154, 155, 156, 157, 158, 159, 160, 161, 161, 162, 163, 164, 165, 166, 167, 168,
   169, 170, 170, 171, 172, 173, 174, 175, 176, 177, 178, 179, 179, 180, 181, 182, 183, 184,
   185, 186, 187, 188, 189, 189, 190, 191, 192, 193, 194, 195, 196, 197, 198, 199, 199, 200,
   201, 202, 203, 204, 205, 206, 207, 208, 208, 209, 210, 211, 212, 213, 214, 215, 216, 217,
   217, 218, 219, 220, 221, 222, 223, 224, 225, 226, 227, 227, 228, 229, 230, 231, 232, 233,
   234, 235, 236, 237, 237, 238, 239, 240, 241, 242, 243, 244, 245, 246, 246, 247, 248, 249,
   250, 251, 252, 253, 254, 255, 255]

/-- The check, in integer arithmetic, that `forwardRounded[i]` and `roundTripTable[i]` are the
values they are said to be (a real power with exponent `222 / 100` is compared with a
rational number by comparing the `222`-th and `100`-th powers), and that the round trip of
`i` lies between `i` and `i + 25`. -/
def tableCertificate (i : Nat) : Bool :=
  let n := 100000 * i + 2801898
  let d := 28302000
  let R := forwardRounded.getD i 0
  let v := min R 4095
  let T := roundTripTable.getD i 0
  decide (1 ≤ R) && decide ((2 * R - 1) ^ 100 * d ^ 222 ≤ n ^ 222 * 8192 ^ 100)
    && decide (n ^ 222 * 8192 ^ 100 < (2 * R + 1) ^ 100 * d ^ 222)
    && decide (T ^ 222 * 4096 ^ 100 ≤ v ^ 100 * 256 ^ 222)
    && decide (v ^ 100 * 256 ^ 222 < (T + 1) ^ 222 * 4096 ^ 100)
    && decide (i ≤ T) && decide (T ≤ i + 25)

/-- The check, in integer arithmetic, that `floor(256 * (v / 4096) ^ (1 / 2.22))` is `140` or
`141`. -/
def brightnessCertificate (v : Nat) : Bool :=
  decide (140 ^ 222 * 4096 ^ 100 ≤ v ^ 100 * 256 ^ 222)
    && decide (v ^ 100 * 256 ^ 222 < 142 ^ 222 * 4096 ^ 100)

end Certificate

section Reference

variable {F : Type} [LinearOrderedField F] [FloorRing F]

end Reference

section Basic

variable {F : Type} [LinearOrderedField F] [FloorRing F]

/-- Adding a non-negative `double` to a non-negative integer accumulator and converting back
adds the integer part of the `double`. -/
theorem trunc_add_nonneg (val : Int) (t : F) (hval : 0 ≤ val) (ht : 0 ≤ t) :
    trunc ((val : F) + t) = val + ⌊t⌋ := by
  have h : (0 : F) ≤ (val : F) + t := add_nonneg (by exact_mod_cast hval) ht
  simp [trunc, h]

theorem clamp_in_le (b : Nat) : clamp_in b ≤ 255 := by
  unfold clamp_in IN_RANGE
  split_ifs <;> omega

theorem clamp_in_of_le {b : Nat} (h : b ≤ 255) : clamp_in b = b := by
  unfold clamp_in IN_RANGE
  split_ifs <;> omega

theorem clamp_out_of_nonneg {val : Int} (h0 : 0 ≤ val) (h1 : val < 4294967296) :
    clamp_out val = min val.toNat 4095 := by
  unfold clamp_out OUT_RANGE
  rw [Int.emod_eq_of_lt h0 h1]
  split_ifs <;> omega

theorem clamp_out_lt {val : Int} (h0 : 0 ≤ val) (h1 : val < 4294967296) :
    clamp_out val < 4096 := by
  rw [clamp_out_of_nonneg h0 h1]; omega

/-- A monadic left fold in `Option` whose steps all succeed is the pure left fold. -/
theorem foldlM_eq_some_foldl {α β : Type} (f : β → α → Option β) (g : β → α → β) (l : List α)
    (h : ∀ b, ∀ a ∈ l, f b a = some (g b a)) (b : β) :
    l.foldlM f b = some (l.foldl g b) := by
  induction l generalizing b with
  | nil => rfl
  | cons a l ih =>
    simp only [List.foldlM_cons, List.foldl_cons]
    rw [h b a (List.mem_cons_self _ _)]
    exact ih (fun b a ha => h b a (List.mem_cons_of_mem _ ha)) _

/-- A nested monadic fold is the fold over the flattened list of index pairs. -/
theorem foldlM_nested {α β γ : Type} (f : γ → α → β → Option γ) (l : List α) (l2 : List β)
    (c : γ) :
    l.foldlM (fun c a => l2.foldlM (fun c b => f c a b) c) c
      = (l.flatMap fun a => l2.map fun b => (a, b)).foldlM (fun c ab => f c ab.1 ab.2) c := by
  induction l generalizing c with
  | nil => rfl
  | cons a l ih =>
    simp only [List.foldlM_cons, List.flatMap_cons, List.foldlM_append]
    have : (l2.map fun b => (a, b)).foldlM (fun c ab => f c ab.1 ab.2) c
        = l2.foldlM (fun c b => f c a b) c := by
      clear ih
      induction l2 generalizing c with
      | nil => rfl
      | cons b l2 ih2 =>
        simp only [List.map_cons, List.foldlM_cons]
        cases f c a b with
        | none => rfl
        | some c1 => simpa using ih2 c1
    rw [this]
    cases l2.foldlM (fun c b => f c a b) c with
    | none => rfl
    | some c1 => simpa using ih c1

/-- A `gint` product that lies in the range of `gint` is the mathematical product. -/
theorem wrap32_eq {n : Int} (h0 : -2147483648 ≤ n) (h1 : n < 2147483648) : wrap32 n = n := by
  unfold wrap32
  omega

theorem wrap32_range (n : Int) : -2147483648 ≤ wrap32 n ∧ wrap32 n < 2147483648 := by
  unfold wrap32
  omega

/-- Two monadic folds whose steps agree on the elements of the list agree. -/
theorem foldlM_congr {α β : Type} (f g : β → α → Option β) (l : List α)
    (h : ∀ b, ∀ a ∈ l, f b a = g b a) (b : β) : l.foldlM f b = l.foldlM g b := by
  induction l generalizing b with
  | nil => rfl
  | cons a l ih =>
    simp only [List.foldlM_cons]
    rw [h b a (List.mem_cons_self _ _)]
    cases g b a with
    | none => rfl
    | some b1 => exact ih (fun b a ha => h b a (List.mem_cons_of_mem _ ha)) b1

theorem foldlM_const_some {α β : Type} (l : List α) (b : β) :
    l.foldlM (fun (b : β) (_ : α) => some b) b = some b := by
  induction l with
  | nil => rfl
  | cons a l ih => simpa using ih

/-- Without interior pixels the loops of either branch return the image as it is, whatever its
length: no pixel is read. -/
theorem convolve_no_interior (filter : Gstsmoothingfilter F) (s : Nat) (pitch : Int)
    (img : List Nat) (h : filter.width ≤ s ∨ filter.height ≤ s) :
    convolve_fast filter s pitch img = some img ∧
      convolve_generic filter s pitch img = some img := by
  unfold convolve_fast convolve_generic
  rcases h with h | h
  · have h0 : (filter.width - (s : Int)).toNat = 0 := by omega
    simp only [h0, List.range_zero, List.foldlM_nil]
    exact ⟨foldlM_const_some _ _, foldlM_const_some _ _⟩
  · have h0 : (filter.height - (s : Int)).toNat = 0 := by omega
    simp only [h0, List.range_zero, List.foldlM_nil]
    exact ⟨rfl, rfl⟩

end Basic

section Taps

variable {F : Type} [LinearOrderedField F] [FloorRing F]

theorem tap_eq_map (filter : Gstsmoothingfilter F) (img : List Nat) (p : Int) (c k : Nat)
    (val : Int) :
    tap filter img p c k val
      = (tapOpt filter img p c k).map fun t => trunc ((val : F) + t) := by
  unfold tap tapOpt
  cases load img p c with
  | none => rfl
  | some px =>
    cases h1 : filter.forward_gamma[clamp_in px]? with
    | none => simp [h1]
    | some g =>
      cases h2 : filter.smoothing_buffer with
      | none => simp [h1]
      | some kernel =>
        cases h3 : kernel[k]? with
        | none => simp [h1, h3]
        | some w => simp [h1, h3]

theorem taps_eq (filter : Gstsmoothingfilter F) (img : List Nat) (t : Int × Nat) (a : Acc) :
    taps filter img t.1 t.2 a
      = if tapsOk filter img t then some (addTaps filter img a t) else none := by
  unfold taps tapsOk addTaps tapVal
  simp only [tap_eq_map]
  cases tapOpt filter img t.1 0 t.2 <;> cases tapOpt filter img t.1 1 t.2 <;>
    cases tapOpt filter img t.1 2 t.2 <;> simp

/-- The accumulation over a list of kernel entries succeeds exactly when every read is in
bounds, and is then the pure fold. -/
theorem accumulate_eq (filter : Gstsmoothingfilter F) (img : List Nat)
    (ts : List (Int × Nat)) (a : Acc) :
    ts.foldlM (fun a t => taps filter img t.1 t.2 a) a
      = if ts.all (tapsOk filter img) then some (ts.foldl (addTaps filter img) a) else none := by
  induction ts generalizing a with
  | nil => simp
  | cons t ts ih =>
    simp only [List.foldlM_cons, List.foldl_cons, List.all_cons]
    rw [taps_eq]
    cases h : tapsOk filter img t with
    | false => simp
    | true => simpa using ih _

theorem fast_pixel_eq (filter : Gstsmoothingfilter F) (pitch : Int) (img : List Nat)
    (ptr : Int) :
    fast_pixel filter pitch img ptr
      = ((fastTaps pitch ptr).foldlM (fun a t => taps filter img t.1 t.2 a) ⟨0, 0, 0⟩).bind
          (write_back filter img ptr) := by
  simp [fast_pixel, fastTaps, List.foldlM, bind, Option.bind_assoc]

/-- The body of the generic loops as an accumulation over its list of taps, when no product
`i * pitch` overflows. -/
theorem generic_pixel_eq (filter : Gstsmoothingfilter F) (s : Nat) (pitch : Int)
    (img : List Nat) (ptr : Int)
    (hw : ∀ i : Nat, i < s → wrap32 ((i : Int) * pitch) = (i : Int) * pitch) :
    generic_pixel filter s pitch img ptr
      = ((genericTaps s pitch ptr).foldlM (fun a t => taps filter img t.1 t.2 a) ⟨0, 0, 0⟩).bind
          (write_back filter img ptr) := by
  unfold generic_pixel genericTaps
  have hcongr : (List.range s).foldlM (fun a (i : Nat) =>
        (List.range s).foldlM (fun a (j : Nat) =>
          taps filter img (ptr + wrap32 ((i : Int) * pitch) + (j : Int)) (i * s + j) a) a)
        (⟨0, 0, 0⟩ : Acc)
      = (List.range s).foldlM (fun a (i : Nat) =>
        (List.range s).foldlM (fun a (j : Nat) =>
          taps filter img (ptr + (i : Int) * pitch + (j : Int)) (i * s + j) a) a)
        (⟨0, 0, 0⟩ : Acc) := by
    apply foldlM_congr
    intro a i hi
    rw [hw i (List.mem_range.1 hi)]
  simp only [bind]
  rw [hcongr]
  rw [foldlM_nested (fun a (i j : Nat) =>
    taps filter img (ptr + (i : Int) * pitch + (j : Int)) (i * s + j) a)]
  have h : ∀ (l : List (Nat × Nat)) (a : Acc),
      l.foldlM (fun c ab => taps filter img (ptr + (ab.1 : Int) * pitch + (ab.2 : Int))
          (ab.1 * s + ab.2) c) a
        = (l.map fun ab => (ptr + (ab.1 : Int) * pitch + (ab.2 : Int), ab.1 * s + ab.2)).foldlM
            (fun a t => taps filter img t.1 t.2 a) a := by
    intro l
    induction l with
    | nil => intro a; rfl
    | cons x l ih =>
      intro a
      simp only [List.foldlM_cons, List.map_cons]
      cases taps filter img (ptr + (x.1 : Int) * pitch + (x.2 : Int)) (x.1 * s + x.2) a with
      | none => rfl
      | some a1 => simpa using ih a1
  rw [h]
  simp [List.map_flatMap, List.flatMap_map, Function.comp_def]

end Taps

section FastGeneric

variable {F : Type} [LinearOrderedField F] [FloorRing F]

theorem tapVal_nonneg {filter : Gstsmoothingfilter F} (h : NonnegTables filter)
    (img : List Nat) (c : Nat) (t : Int × Nat) : 0 ≤ tapVal filter img c t := by
  unfold tapVal tapOpt
  cases load img t.1 c with
  | none => simp
  | some px =>
    cases h1 : filter.forward_gamma[clamp_in px]? with
    | none => simp [h1]
    | some g =>
      cases h2 : filter.smoothing_buffer with
      | none => simp [h1]
      | some kernel =>
        cases h3 : kernel[t.2]? with
        | none => simp [h1, h3]
        | some w =>
          simp only [h1, h3, Option.some_bind, Option.pure_def, Option.bind_eq_bind,
            Option.getD_some]
          exact mul_nonneg (h.1 g (List.getElem?_mem h1)) (h.2 kernel h2 w (List.getElem?_mem h3))

/-- With non-negative tables the accumulators grow by the integer part of each product, so
the result of the accumulation is a sum that does not depend on the order of the entries. -/
theorem foldl_addTaps_nonneg {filter : Gstsmoothingfilter F} (h : NonnegTables filter)
    (img : List Nat) (ts : List (Int × Nat)) (a : Acc)
    (ha : 0 ≤ a.valb ∧ 0 ≤ a.valg ∧ 0 ≤ a.valr) :
    ts.foldl (addTaps filter img) a
      = ⟨a.valb + (ts.map fun t => ⌊tapVal filter img 0 t⌋).sum,
         a.valg + (ts.map fun t => ⌊tapVal filter img 1 t⌋).sum,
         a.valr + (ts.map fun t => ⌊tapVal filter img 2 t⌋).sum⟩ := by
  induction ts generalizing a with
  | nil => simp
  | cons t ts ih =>
    have hb := tapVal_nonneg h img 0 t
    have hg := tapVal_nonneg h img 1 t
    have hr := tapVal_nonneg h img 2 t
    simp only [List.foldl_cons, List.map_cons, List.sum_cons]
    rw [ih]
    · simp only [addTaps, trunc_add_nonneg _ _ ha.1 hb, trunc_add_nonneg _ _ ha.2.1 hg,
        trunc_add_nonneg _ _ ha.2.2 hr, add_assoc]
    · simp only [addTaps, trunc_add_nonneg _ _ ha.1 hb, trunc_add_nonneg _ _ ha.2.1 hg,
        trunc_add_nonneg _ _ ha.2.2 hr]
      exact ⟨add_nonneg ha.1 (Int.floor_nonneg.2 hb), add_nonneg ha.2.1 (Int.floor_nonneg.2 hg),
        add_nonneg ha.2.2 (Int.floor_nonneg.2 hr)⟩

theorem fastTaps_perm (pitch ptr : Int) : (fastTaps pitch ptr).Perm (genericTaps 3 pitch ptr) := by
  have h1 : fastTaps pitch ptr = [0,3,6,1,4,7,2,5,8].map
      (fun k : Nat => (ptr + ((k / 3 : Nat) : Int) * pitch + ((k % 3 : Nat) : Int), k)) := by
    simp [fastTaps]
    refine ⟨?_, ?_, ?_, ?_, ?_, ?_⟩ <;> ring
  have h2 : genericTaps 3 pitch ptr = [0,1,2,3,4,5,6,7,8].map
      (fun k : Nat => (ptr + ((k / 3 : Nat) : Int) * pitch + ((k % 3 : Nat) : Int), k)) := by
    simp [genericTaps, List.range_succ]
  rw [h1, h2]
  exact List.Perm.map _ (by decide)

/-- The accumulation over a list of kernel entries, with non-negative tables. -/
theorem accumulate_nonneg {filter : Gstsmoothingfilter F} (h : NonnegTables filter)
    (img : List Nat) (ts : List (Int × Nat)) :
    ts.foldlM (fun a t => taps filter img t.1 t.2 a) (⟨0, 0, 0⟩ : Acc)
      = if ts.all (tapsOk filter img) then
          some ⟨(ts.map fun t => ⌊tapVal filter img 0 t⌋).sum,
            (ts.map fun t => ⌊tapVal filter img 1 t⌋).sum,
            (ts.map fun t => ⌊tapVal filter img 2 t⌋).sum⟩
        else none := by
  rw [accumulate_eq, foldl_addTaps_nonneg h img ts _ ⟨le_refl _, le_refl _, le_refl _⟩]
  simp

theorem accumulate_perm {filter : Gstsmoothingfilter F} (h : NonnegTables filter)
    (img : List Nat) {ts ts' : List (Int × Nat)} (hp : ts.Perm ts') :
    ts.foldlM (fun a t => taps filter img t.1 t.2 a) (⟨0, 0, 0⟩ : Acc)
      = ts'.foldlM (fun a t => taps filter img t.1 t.2 a) (⟨0, 0, 0⟩ : Acc) := by
  rw [accumulate_nonneg h, accumulate_nonneg h]
  have hall : ts.all (tapsOk filter img) = ts'.all (tapsOk filter img) := by
    rw [Bool.eq_iff_iff, List.all_eq_true, List.all_eq_true]
    exact ⟨fun H x hx => H x (hp.mem_iff.2 hx), fun H x hx => H x (hp.mem_iff.1 hx)⟩
  rw [hall, (hp.map _).sum_eq, (hp.map _).sum_eq, (hp.map _).sum_eq]

/-- One pixel: the fast 3x3 body and the generic body with `s = 3` agree, when the products
`i * pitch` of the generic body do not overflow. -/
theorem fast_pixel_eq_generic_pixel {filter : Gstsmoothingfilter F} (h : NonnegTables filter)
    (pitch : Int) (img : List Nat) (ptr : Int)
    (hw : ∀ i : Nat, i < 3 → wrap32 ((i : Int) * pitch) = (i : Int) * pitch) :
    fast_pixel filter pitch img ptr = generic_pixel filter 3 pitch img ptr := by
  rw [fast_pixel_eq, generic_pixel_eq _ _ _ _ _ hw,
    accumulate_perm h img (fastTaps_perm pitch ptr)]

/-- Twice a pitch between `-2 ^ 30` and `2 ^ 30 - 1` fits a `gint`. -/
theorem wrap32_mul_pitch {pitch : Int} (hp : -1073741824 ≤ pitch ∧ pitch ≤ 1073741823)
    (i : Nat) (hi : i < 3) : wrap32 ((i : Int) * pitch) = (i : Int) * pitch := by
  apply wrap32_eq
  · interval_cases i <;> omega
  · interval_cases i <;> omega

/-- The whole frame: the fast 3x3 loops and the generic loops with `s = 3` agree, for a
pitch whose double fits a `gint`. -/
theorem convolve_fast_eq_convolve_generic {filter : Gstsmoothingfilter F}
    (h : NonnegTables filter) (pitch : Int)
    (hp : -1073741824 ≤ pitch ∧ pitch ≤ 1073741823) (img : List Nat) :
    convolve_fast filter 3 pitch img = convolve_generic filter 3 pitch img := by
  unfold convolve_fast convolve_generic
  simp only [fast_pixel_eq_generic_pixel h pitch _ _ (wrap32_mul_pitch hp)]

end FastGeneric

section Pixel

variable {F : Type} [LinearOrderedField F] [FloorRing F]

theorem load_congr {img img' : List Nat} {p : Int} {c : Nat}
    (h : img[3 * p.toNat + c]? = img'[3 * p.toNat + c]?) : load img p c = load img' p c := by
  unfold load
  split_ifs
  · rfl
  · exact h

theorem tapOpt_congr (filter : Gstsmoothingfilter F) {img img' : List Nat} {p : Int} {c : Nat}
    (k : Nat) (h : img[3 * p.toNat + c]? = img'[3 * p.toNat + c]?) :
    tapOpt filter img p c k = tapOpt filter img' p c k := by
  unfold tapOpt
  rw [load_congr h]

/-- The products read for a pixel only depend on the bytes of the pixels that are read. -/
theorem taps_congr (filter : Gstsmoothingfilter F) {img img' : List Nat} (t : Int × Nat)
    (h : ∀ n, 3 * t.1.toNat ≤ n → img[n]? = img'[n]?) :
    tapsOk filter img t = tapsOk filter img' t ∧
      ∀ c, c < 3 → tapVal filter img c t = tapVal filter img' c t := by
  have h0 := tapOpt_congr filter (p := t.1) (c := 0) t.2 (h _ (by omega))
  have h1 := tapOpt_congr filter (p := t.1) (c := 1) t.2 (h _ (by omega))
  have h2 := tapOpt_congr filter (p := t.1) (c := 2) t.2 (h _ (by omega))
  refine ⟨by simp only [tapsOk, h0, h1, h2], fun c hc => ?_⟩
  unfold tapVal
  interval_cases c
  · rw [h0]
  · rw [h1]
  · rw [h2]

theorem tapOpt_of_inbounds {filter : Gstsmoothingfilter F} {img : List Nat} {p : Int}
    {c k : Nat} {K : List F} (hp : 0 ≤ p) (hc : 3 * p.toNat + c < img.length)
    (hfg : filter.forward_gamma.length = 256) (hK : filter.smoothing_buffer = some K)
    (hk : k < K.length) :
    tapOpt filter img p c k
      = some (filter.forward_gamma.getD (clamp_in (img.getD (3 * p.toNat + c) 0)) 0
          * K.getD k 0) := by
  have h1 : load img p c = some (img.getD (3 * p.toNat + c) 0) := by
    unfold load
    rw [if_neg (by omega), List.getD_eq_getElem?_getD, List.getElem?_eq_getElem hc]
    rfl
  have h2 : ∀ n, filter.forward_gamma[clamp_in n]?
      = some (filter.forward_gamma.getD (clamp_in n) 0) := by
    intro n
    have := clamp_in_le n
    rw [List.getD_eq_getElem?_getD, List.getElem?_eq_getElem (by omega)]
    rfl
  have h3 : K[k]? = some (K.getD k 0) := by
    rw [List.getD_eq_getElem?_getD, List.getElem?_eq_getElem hk]
    rfl
  unfold tapOpt
  rw [h1, hK]
  simp only [Option.some_bind, Option.bind_eq_bind]
  rw [h2, Option.some_bind, h3]
  rfl

/-- The write-back of a pixel whose three bytes are inside the image. -/
theorem write_back_eq {filter : Gstsmoothingfilter F} {img : List Nat} {ptr : Int} {a : Acc}
    (hig : filter.inverse_gamma.length = 4096) (hp : 0 ≤ ptr)
    (hlen : 3 * ptr.toNat + 2 < img.length)
    (hb : 0 ≤ a.valb ∧ a.valb < 4294967296) (hg : 0 ≤ a.valg ∧ a.valg < 4294967296)
    (hr : 0 ≤ a.valr ∧ a.valr < 4294967296) :
    write_back filter img ptr a
      = some (setPixel img ptr.toNat (filter.inverse_gamma.getD (clamp_out a.valb) 0 % 256)
          (filter.inverse_gamma.getD (clamp_out a.valg) 0 % 256)
          (filter.inverse_gamma.getD (clamp_out a.valr) 0 % 256)) := by
  have hi : ∀ v : Int, 0 ≤ v ∧ v < 4294967296 → filter.inverse_gamma[clamp_out v]?
      = some (filter.inverse_gamma.getD (clamp_out v) 0) := by
    intro v hv
    have := clamp_out_lt hv.1 hv.2
    rw [List.getD_eq_getElem?_getD, List.getElem?_eq_getElem (by omega)]
    rfl
  unfold write_back store setPixel
  rw [hi _ hb, hi _ hg, hi _ hr]
  simp only [Option.some_bind, Option.bind_eq_bind, if_neg (not_lt.2 hp)]
  rw [if_pos (by omega)]
  simp only [Option.some_bind, List.length_set]
  rw [if_pos (by omega)]
  simp only [Option.some_bind, List.length_set]
  rw [if_pos (by omega)]
  rfl

end Pixel

section Step

variable {F : Type} [LinearOrderedField F] [FloorRing F]

theorem TablesOk.nonneg {filter : Gstsmoothingfilter F} {s : Nat} (h : TablesOk filter s) :
    NonnegTables filter := by
  refine ⟨fun g hg => (h.fg_range g hg).1, fun K hK w hw => ?_⟩
  obtain ⟨K', hK', -, hr⟩ := h.kernel
  rw [hK] at hK'
  cases hK'
  exact (hr w hw).1

theorem tapVal_le {filter : Gstsmoothingfilter F} {s : Nat} (h : TablesOk filter s)
    (img : List Nat) (c : Nat) (t : Int × Nat) : tapVal filter img c t ≤ 4096 := by
  obtain ⟨K', hK', -, hr⟩ := h.kernel
  unfold tapVal tapOpt
  cases load img t.1 c with
  | none => simp
  | some px =>
    cases h1 : filter.forward_gamma[clamp_in px]? with
    | none => simp [h1]
    | some g =>
      rw [hK']
      cases h3 : K'[t.2]? with
      | none => simp [h1, h3]
      | some w =>
        simp only [h1, h3, Option.some_bind, Option.pure_def, Option.bind_eq_bind,
          Option.getD_some]
        have hg := h.fg_range g (List.getElem?_mem h1)
        have hw := hr w (List.getElem?_mem h3)
        calc g * w ≤ 4096 * 1 := mul_le_mul hg.2 hw.2 hw.1 (by norm_num)
          _ = 4096 := by norm_num

/-- The accumulated sum of a pixel is non-negative and bounded by the number of kernel
entries times `4096`. -/
theorem sum_floor_tapVal_bounds {filter : Gstsmoothingfilter F} {s : Nat}
    (h : TablesOk filter s) (img : List Nat) (c : Nat) (ts : List (Int × Nat)) :
    0 ≤ (ts.map fun t => ⌊tapVal filter img c t⌋).sum ∧
      (ts.map fun t => ⌊tapVal filter img c t⌋).sum ≤ 4096 * ts.length := by
  induction ts with
  | nil => simp
  | cons t ts ih =>
    have h0 : 0 ≤ ⌊tapVal filter img c t⌋ := Int.floor_nonneg.2 (tapVal_nonneg h.nonneg img c t)
    have h1 : ⌊tapVal filter img c t⌋ ≤ 4096 := by
      have := tapVal_le h img c t
      exact Int.floor_le_iff.2 (lt_of_le_of_lt this (by norm_num))
    simp only [List.map_cons, List.sum_cons, List.length_cons]
    push_cast
    constructor <;> linarith [ih.1, ih.2]

theorem tapsOk_of_inbounds {filter : Gstsmoothingfilter F} {s : Nat} (h : TablesOk filter s)
    {img : List Nat} {t : Int × Nat} (hp : 0 ≤ t.1) (hlen : 3 * t.1.toNat + 2 < img.length)
    (hk : t.2 < s * s) : tapsOk filter img t = true := by
  obtain ⟨K, hK, hKl, -⟩ := h.kernel
  unfold tapsOk
  rw [tapOpt_of_inbounds hp (by omega) h.fg_len hK (by omega),
    tapOpt_of_inbounds hp (by omega) h.fg_len hK (by omega),
    tapOpt_of_inbounds hp (by omega) h.fg_len hK (by omega)]
  rfl

/-- The explicit value of a product whose reads are in bounds. -/
theorem tapVal_of_inbounds {filter : Gstsmoothingfilter F} {img : List Nat} {t : Int × Nat}
    {c : Nat} {K : List F} (hp : 0 ≤ t.1) (hc : 3 * t.1.toNat + c < img.length)
    (hfg : filter.forward_gamma.length = 256) (hK : filter.smoothing_buffer = some K)
    (hk : t.2 < K.length) :
    tapVal filter img c t
      = filter.forward_gamma.getD (clamp_in (img.getD (3 * t.1.toNat + c) 0)) 0
          * K.getD t.2 0 := by
  unfold tapVal
  rw [tapOpt_of_inbounds hp hc hfg hK hk]
  rfl

theorem outByte_congr (filter : Gstsmoothingfilter F) {img img' : List Nat}
    (ts : List (Int × Nat)) {c : Nat} (hc : c < 3)
    (h : ∀ t ∈ ts, ∀ n, 3 * t.1.toNat ≤ n → img[n]? = img'[n]?) :
    outByte filter img ts c = outByte filter img' ts c := by
  unfold outByte
  have : (ts.map fun t => ⌊tapVal filter img c t⌋) = ts.map fun t => ⌊tapVal filter img' c t⌋ := by
    apply List.map_congr_left
    intro t ht
    rw [(taps_congr filter t (h t ht)).2 c hc]
  rw [this]

/-- One pixel of the convolution, for a list `ts` of kernel entries whose reads are all inside
the image: the step succeeds and overwrites the three bytes of the pixel. -/
theorem pixel_step {filter : Gstsmoothingfilter F} {s : Nat} (h : TablesOk filter s)
    {img : List Nat} {ptr : Int} (ts : List (Int × Nat)) (hp : 0 ≤ ptr)
    (hlen : 3 * ptr.toNat + 2 < img.length) (hn : ts.length ≤ 1024)
    (hts : ∀ t ∈ ts, 0 ≤ t.1 ∧ 3 * t.1.toNat + 2 < img.length ∧ t.2 < s * s) :
    (ts.foldlM (fun a t => taps filter img t.1 t.2 a) (⟨0, 0, 0⟩ : Acc)).bind
        (write_back filter img ptr)
      = some (setPixel img ptr.toNat (outByte filter img ts 0) (outByte filter img ts 1)
          (outByte filter img ts 2)) := by
  have hall : ts.all (tapsOk filter img) = true := by
    rw [List.all_eq_true]
    intro t ht
    exact tapsOk_of_inbounds h (hts t ht).1 (hts t ht).2.1 (hts t ht).2.2
  have hb : ∀ c, 0 ≤ (ts.map fun t => ⌊tapVal filter img c t⌋).sum ∧
      (ts.map fun t => ⌊tapVal filter img c t⌋).sum < 4294967296 := by
    intro c
    have := sum_floor_tapVal_bounds h img c ts
    have hn' : (ts.length : Int) ≤ 1024 := by exact_mod_cast hn
    constructor <;> linarith [this.1, this.2]
  rw [accumulate_nonneg h.nonneg, hall, if_pos rfl, Option.some_bind,
    write_back_eq h.ig_len hp hlen (hb 0) (hb 1) (hb 2)]
  rfl

end Step

section Sweep

theorem length_setPixel (img : List Nat) (p b g r : Nat) :
    (setPixel img p b g r).length = img.length := by
  simp [setPixel]

theorem getElem?_setPixel (img : List Nat) (p b g r n : Nat) (h : 3 * p + 2 < img.length) :
    (setPixel img p b g r)[n]?
      = if n = 3 * p then some b else if n = 3 * p + 1 then some g
        else if n = 3 * p + 2 then some r else img[n]? := by
  unfold setPixel
  simp only [List.getElem?_set, List.length_set]
  by_cases h0 : n = 3 * p
  · subst h0
    rw [if_neg (by omega), if_neg (by omega), if_pos rfl, if_pos (by omega), if_pos rfl]
  · by_cases h1 : n = 3 * p + 1
    · subst h1
      rw [if_neg (by omega), if_pos rfl, if_pos (by omega), if_neg (by omega), if_pos rfl]
    · by_cases h2 : n = 3 * p + 2
      · subst h2
        rw [if_pos rfl, if_pos (by omega), if_neg (by omega), if_neg (by omega), if_pos rfl]
      · rw [if_neg (by omega), if_neg (by omega), if_neg (by omega), if_neg h0, if_neg h1,
          if_neg h2]

/-- A raster sweep over strictly increasing pixel indices, each step of which overwrites its
own pixel with a value computed from the bytes at and after that pixel: every visited pixel
ends with the value computed from the original image, every other byte is unchanged. -/
theorem sweep (step : List Nat → Int → Option (List Nat)) (out : Int → Nat → Nat)
    (orig : List Nat) (ps : List Int)
    (hstep : ∀ img, ∀ p ∈ ps, img.length = orig.length →
      (∀ n, 3 * p.toNat ≤ n → img[n]? = orig[n]?) →
      step img p = some (setPixel img p.toNat (out p 0) (out p 1) (out p 2)))
    (hsorted : ps.Pairwise (· < ·))
    (hin : ∀ p ∈ ps, 0 ≤ p ∧ 3 * p.toNat + 2 < orig.length) :
    ∀ img, img.length = orig.length →
      (∀ p ∈ ps, ∀ n, 3 * p.toNat ≤ n → img[n]? = orig[n]?) →
      ∃ final, ps.foldlM step img = some final ∧ final.length = orig.length ∧
        ∀ n, final[n]? = if ((n / 3 : Nat) : Int) ∈ ps
          then some (out ((n / 3 : Nat) : Int) (n % 3)) else img[n]? := by
  induction ps with
  | nil =>
    intro img hl _
    exact ⟨img, rfl, hl, fun n => by simp⟩
  | cons p ps ih =>
    intro img hl hagree
    have hp := hin p (List.mem_cons_self _ _)
    rw [List.pairwise_cons] at hsorted
    have hs := hstep img p (List.mem_cons_self _ _) hl (hagree p (List.mem_cons_self _ _))
    have hl1 : (setPixel img p.toNat (out p 0) (out p 1) (out p 2)).length = orig.length := by
      rw [length_setPixel, hl]
    have hget := fun n => getElem?_setPixel img p.toNat (out p 0) (out p 1) (out p 2) n
      (by rw [hl]; exact hp.2)
    obtain ⟨final, hf, hfl, hfn⟩ := ih
      (fun img q hq => hstep img q (List.mem_cons_of_mem _ hq)) hsorted.2
      (fun q hq => hin q (List.mem_cons_of_mem _ hq))
      (setPixel img p.toNat (out p 0) (out p 1) (out p 2)) hl1
      (by
        intro q hq n hn
        have hlt := hsorted.1 q hq
        have hq0 := (hin q (List.mem_cons_of_mem _ hq)).1
        rw [hget n, if_neg (by omega), if_neg (by omega), if_neg (by omega)]
        exact hagree q (List.mem_cons_of_mem _ hq) n hn)
    refine ⟨final, ?_, hfl, fun n => ?_⟩
    · rw [List.foldlM_cons, hs]
      exact hf
    · rw [hfn n]
      by_cases hmem : ((n / 3 : Nat) : Int) ∈ ps
      · rw [if_pos hmem, if_pos (List.mem_cons_of_mem _ hmem)]
      · rw [if_neg hmem, hget n]
        by_cases hnp : ((n / 3 : Nat) : Int) = p
        · have hmem' : ((n / 3 : Nat) : Int) ∈ p :: ps := by
            rw [hnp]
            exact List.mem_cons_self _ _
          have h3 : n % 3 = 0 ∨ n % 3 = 1 ∨ n % 3 = 2 := by omega
          have hpn : p.toNat = n / 3 := by omega
          rw [if_pos hmem', hnp]
          rcases h3 with h3 | h3 | h3
          · rw [if_pos (by omega), h3]
          · rw [if_neg (by omega), if_pos (by omega), h3]
          · rw [if_neg (by omega), if_neg (by omega), if_pos (by omega), h3]
        · have hne : ¬ ((n / 3 : Nat) : Int) ∈ p :: ps := by
            simp only [List.mem_cons, not_or]
            exact ⟨hnp, hmem⟩
          rw [if_neg hne, if_neg (by omega), if_neg (by omega), if_neg (by omega)]

end Sweep

section Frame

variable {F : Type} [LinearOrderedField F] [FloorRing F]

/-- The generic loops as one fold over the pixel indices, when no product `pitch * y`
overflows. -/
theorem convolve_generic_eq (filter : Gstsmoothingfilter F) (s : Nat) (pitch : Int)
    (img : List Nat)
    (hw : ∀ y : Nat, y < (filter.height - s).toNat →
      wrap32 (pitch * (y : Int)) = pitch * (y : Int)) :
    convolve_generic filter s pitch img
      = (rasterPtrs pitch (filter.height - s).toNat (filter.width - s).toNat).foldlM
          (generic_pixel filter s pitch) img := by
  unfold convolve_generic rasterPtrs
  have hcongr : (List.range (filter.height - (s : Int)).toNat).foldlM (fun img (y : Nat) =>
        (List.range (filter.width - (s : Int)).toNat).foldlM (fun img (x : Nat) =>
          generic_pixel filter s pitch img (wrap32 (pitch * (y : Int)) + (x : Int))) img) img
      = (List.range (filter.height - (s : Int)).toNat).foldlM (fun img (y : Nat) =>
        (List.range (filter.width - (s : Int)).toNat).foldlM (fun img (x : Nat) =>
          generic_pixel filter s pitch img (pitch * (y : Int) + (x : Int))) img) img := by
    apply foldlM_congr
    intro b y hy
    rw [hw y (List.mem_range.1 hy)]
  simp only
  rw [hcongr]
  rw [foldlM_nested (fun img (y x : Nat) =>
    generic_pixel filter s pitch img (pitch * (y : Int) + (x : Int)))]
  rw [← List.foldlM_map (fun (yx : Nat × Nat) => pitch * (yx.1 : Int) + (yx.2 : Int))
    (generic_pixel filter s pitch)]
  simp [List.map_flatMap, Function.comp_def]

theorem mem_rasterPtrs {pitch : Int} {m n : Nat} {p : Int} :
    p ∈ rasterPtrs pitch m n ↔ ∃ y, y < m ∧ ∃ x, x < n ∧ pitch * (y : Int) + (x : Int) = p := by
  simp [rasterPtrs, List.mem_flatMap, List.mem_map, List.mem_range]

theorem mem_genericTaps {s : Nat} {pitch ptr : Int} {t : Int × Nat} :
    t ∈ genericTaps s pitch ptr ↔
      ∃ i, i < s ∧ ∃ j, j < s ∧ (ptr + (i : Int) * pitch + (j : Int), i * s + j) = t := by
  simp [genericTaps, List.mem_flatMap, List.mem_map, List.mem_range]

theorem length_genericTaps (s : Nat) (pitch ptr : Int) :
    (genericTaps s pitch ptr).length = s * s := by
  simp [genericTaps, List.length_flatMap, Function.comp_def]

theorem rasterPtrs_sorted {W : Int} {m n : Nat} (hn : (n : Int) ≤ W) :
    (rasterPtrs W m n).Pairwise (· < ·) := by
  unfold rasterPtrs
  rw [List.pairwise_flatMap]
  constructor
  · intro y _
    rw [List.pairwise_map]
    exact (List.pairwise_lt_range n).imp (fun {a b} hab => by
      have : (a : Int) < b := by exact_mod_cast hab
      linarith)
  · refine (List.pairwise_lt_range m).imp (fun {y1 y2} hy => ?_)
    intro a ha b hb
    simp only [List.mem_map, List.mem_range] at ha hb
    obtain ⟨x1, hx1, rfl⟩ := ha
    obtain ⟨x2, hx2, rfl⟩ := hb
    have h1 : (x1 : Int) < n := by exact_mod_cast hx1
    have h2 : (y1 : Int) + 1 ≤ y2 := by exact_mod_cast hy
    have h3 : (0 : Int) ≤ x2 := by positivity
    have hW : 0 ≤ W := le_trans (by positivity) hn
    have h4 : W * ((y1 : Int) + 1) ≤ W * y2 := mul_le_mul_of_nonneg_left h2 hW
    linarith

end Frame

section Frame2

variable {F : Type} [LinearOrderedField F] [FloorRing F]

theorem rasterPtrs_zero (pitch : Int) (m : Nat) : rasterPtrs pitch m 0 = [] := by
  simp [rasterPtrs]

/-- The pixel read by the kernel entry `(i, j)` at the interior pixel `(x, y)` lies inside
the frame. -/
theorem tap_index_bound {W H : Int} {s y x i j : Nat} (hy : y < (H - s).toNat)
    (hx : x < (W - s).toNat) (hi : i < s) (hj : j < s) :
    0 ≤ W * (y : Int) + (x : Int) ∧
      W * (y : Int) + (x : Int) ≤ W * (y : Int) + (x : Int) + (i : Int) * W + (j : Int) ∧
      W * (y : Int) + (x : Int) + (i : Int) * W + (j : Int) + 1 ≤ W * H := by
  have hy' : (y : Int) + s + 1 ≤ H := by omega
  have hx' : (x : Int) + s + 1 ≤ W := by omega
  have hW : (0 : Int) ≤ W := by omega
  have hi' : (i : Int) + 1 ≤ s := by omega
  have hj' : (j : Int) + 1 ≤ s := by omega
  have h1 : (0 : Int) ≤ W * (y : Int) := mul_nonneg hW (by positivity)
  have h2 : (0 : Int) ≤ (i : Int) * W := mul_nonneg (by positivity) hW
  have h3 : W * ((y : Int) + (i : Int) + 1) ≤ W * H :=
    mul_le_mul_of_nonneg_left (by omega) hW
  have h4 : W * ((y : Int) + (i : Int) + 1) = W * (y : Int) + (i : Int) * W + W := by ring
  refine ⟨by positivity, by linarith [show (0 : Int) ≤ (j : Int) by positivity], ?_⟩
  linarith

/-- The products of the generic loops on a frame of fewer than `2 ^ 31` pixels with interior
pixels do not overflow. -/
theorem frame_no_wrap {W H : Int} {s : Nat} (hfit : W * H < 2147483648)
    (hW : (W - s).toNat ≠ 0) :
    (∀ y : Nat, y < (H - s).toNat → wrap32 (W * (y : Int)) = W * (y : Int)) ∧
      ((H - s).toNat ≠ 0 → ∀ i : Nat, i < s → wrap32 ((i : Int) * W) = (i : Int) * W) := by
  have hW0 : 0 < W := by omega
  constructor
  · intro y hy
    have h1 : (0 : Int) ≤ W * (y : Int) := mul_nonneg hW0.le (by positivity)
    have h2 : W * (y : Int) ≤ W * H := mul_le_mul_of_nonneg_left (by omega) hW0.le
    exact wrap32_eq (by omega) (by omega)
  · intro hH i hi
    have h1 : (0 : Int) ≤ (i : Int) * W := mul_nonneg (by positivity) hW0.le
    have h2 : (i : Int) * W ≤ H * W := mul_le_mul_of_nonneg_right (by omega) hW0.le
    have h3 : H * W = W * H := mul_comm _ _
    exact wrap32_eq (by omega) (by omega)

/-- The generic loops on a frame with `stride = 3 * width`, fewer than `2 ^ 31` pixels and a
buffer that holds the whole frame: the call succeeds, every interior pixel receives the bytes
computed from the input image, and every other byte is unchanged. -/
theorem convolve_generic_spec {filter : Gstsmoothingfilter F} {s : Nat}
    (h : TablesOk filter s) (hs1 : 1 ≤ s) (hs : s ≤ 32) (img : List Nat)
    (hfit : filter.width * filter.height < 2147483648)
    (hlen : 3 * (filter.width * filter.height) ≤ (img.length : Int)) :
    ∃ final, convolve_generic filter s filter.width img = some final ∧
      final.length = img.length ∧
      ∀ n, final[n]?
        = if ((n / 3 : Nat) : Int) ∈
              rasterPtrs filter.width (filter.height - s).toNat (filter.width - s).toNat
          then some (outByte filter img (genericTaps s filter.width ((n / 3 : Nat) : Int)) (n % 3))
          else img[n]? := by
  by_cases hW : (filter.width - s).toNat = 0
  · rw [(convolve_no_interior filter s filter.width img (Or.inl (by omega))).2, hW,
      rasterPtrs_zero]
    exact ⟨img, rfl, rfl, fun n => by simp⟩
  by_cases hH : (filter.height - s).toNat = 0
  · rw [(convolve_no_interior filter s filter.width img (Or.inr (by omega))).2, hH]
    exact ⟨img, rfl, rfl, fun n => by simp [rasterPtrs]⟩
  obtain ⟨hwy, hwi⟩ := frame_no_wrap (s := s) hfit hW
  rw [convolve_generic_eq _ _ _ _ hwy]
  have hn : (((filter.width - s).toNat : Nat) : Int) ≤ filter.width := by omega
  have hmem : ∀ p ∈ rasterPtrs filter.width (filter.height - s).toNat (filter.width - s).toNat,
      0 ≤ p ∧ 3 * p.toNat + 2 < img.length ∧
        ∀ t ∈ genericTaps s filter.width p,
          0 ≤ t.1 ∧ p ≤ t.1 ∧ 3 * t.1.toNat + 2 < img.length ∧ t.2 < s * s := by
    intro p hp
    obtain ⟨y, hy, x, hx, rfl⟩ := mem_rasterPtrs.1 hp
    have hp0 := tap_index_bound (W := filter.width) (H := filter.height) hy hx
      (show 0 < s by omega) (show 0 < s by omega)
    refine ⟨hp0.1, ?_, ?_⟩
    · have := hp0.2.2
      generalize filter.width * filter.height = A at hlen this
      generalize filter.width * (y : Int) = B at hp0 this ⊢
      omega
    · intro t ht
      obtain ⟨i, hi, j, hj, rfl⟩ := mem_genericTaps.1 ht
      have hb := tap_index_bound (W := filter.width) (H := filter.height) hy hx hi hj
      have hk : i * s + j < s * s := by
        have : (i + 1) * s ≤ s * s := Nat.mul_le_mul_right s hi
        have : (i + 1) * s = i * s + s := by ring
        omega
      refine ⟨le_trans hb.1 hb.2.1, hb.2.1, ?_, hk⟩
      have h1 := hb.2.2
      have h0 := le_trans hb.1 hb.2.1
      simp only
      generalize filter.width * filter.height = A at hlen h1
      generalize filter.width * (y : Int) + (x : Int) + (i : Int) * filter.width + (j : Int) = B
        at h1 h0 ⊢
      omega
  obtain ⟨final, hf, hfl, hfn⟩ := sweep (generic_pixel filter s filter.width)
    (fun p c => outByte filter img (genericTaps s filter.width p) c) img
    (rasterPtrs filter.width (filter.height - s).toNat (filter.width - s).toNat)
    (by
      intro img' p hp hl hagree
      have hp' := hmem p hp
      rw [generic_pixel_eq _ _ _ _ _ (hwi hH),
        pixel_step h (genericTaps s filter.width p) hp'.1
        (by rw [hl]; exact hp'.2.1)
        (by
          rw [length_genericTaps]
          calc s * s ≤ 32 * 32 := Nat.mul_le_mul hs hs
            _ = 1024 := rfl)
        (fun t ht => ⟨(hp'.2.2 t ht).1, by rw [hl]; exact (hp'.2.2 t ht).2.2.1,
          (hp'.2.2 t ht).2.2.2⟩)]
      have hc : ∀ c, c < 3 → outByte filter img' (genericTaps s filter.width p) c
          = outByte filter img (genericTaps s filter.width p) c := by
        intro c hc
        apply outByte_congr filter _ hc
        intro t ht n hn
        apply hagree
        have h1 := (hp'.2.2 t ht).2.1
        have h2 := (hp'.2.2 t ht).1
        have h3 := hp'.1
        omega
      rw [hc 0 (by omega), hc 1 (by omega), hc 2 (by omega)])
    (rasterPtrs_sorted hn)
    (fun p hp => ⟨(hmem p hp).1, (hmem p hp).2.1⟩)
    img rfl (fun _ _ _ _ => rfl)
  exact ⟨final, hf, hfl, hfn⟩

end Frame2

section Kernel

variable {F : Type} [LinearOrderedField F] [FloorRing F]

/-- Two nested loops over `i, j < s` that only use the index `i * s + j` are one loop over
the indices below `r * s`. -/
theorem nested_foldl_index {β : Type} (φ : β → Nat → β) (s r : Nat) (b : β) :
    (List.range r).foldl (fun b i => (List.range s).foldl (fun b j => φ b (i * s + j)) b) b
      = (List.range (r * s)).foldl φ b := by
  induction r with
  | zero => simp
  | succ r ih =>
    rw [List.range_succ, List.foldl_append, ih, Nat.succ_mul, List.range_add, List.foldl_append,
      List.foldl_map]
    rfl

theorem foldl_set_range {α : Type} (v : Nat → α) (n : Nat) (buf : List α)
    (hn : n ≤ buf.length) :
    (List.range n).foldl (fun b k => b.set k (v k)) buf
      = (List.range n).map v ++ buf.drop n := by
  induction n with
  | zero => simp
  | succ n ih =>
    rw [List.range_succ, List.foldl_append, ih (by omega), List.map_append]
    simp only [List.foldl_cons, List.foldl_nil, List.map_cons, List.map_nil]
    rw [List.set_append_right _ _ (by simp), List.append_assoc]
    congr 1
    simp only [List.length_map, List.length_range, Nat.sub_self]
    rw [List.drop_eq_getElem_cons (show n < buf.length by omega)]
    rfl

theorem foldl_normalise_range (φ : F → F) (n : Nat) (buf : List F) (hn : n ≤ buf.length) :
    (List.range n).foldl (fun b k => b.set k (φ (b.getD k 0))) buf
      = (buf.take n).map φ ++ buf.drop n := by
  induction n with
  | zero => simp
  | succ n ih =>
    have hlt : n < buf.length := by omega
    rw [List.range_succ, List.foldl_append, ih (by omega)]
    simp only [List.foldl_cons, List.foldl_nil]
    have hl : ((buf.take n).map φ).length = n := by
      simp [List.length_take]; omega
    rw [List.set_append_right _ _ (by omega), hl, Nat.sub_self,
      List.getD_eq_getElem?_getD, List.getElem?_append_right (by omega), hl, Nat.sub_self,
      List.take_succ, List.map_append, List.append_assoc]
    simp only [List.getElem?_eq_getElem hlt, Nat.zero_add, Nat.add_zero, Option.getD_some,
      Option.toList_some, List.map_cons, List.map_nil, List.singleton_append]
    congr 1
    rw [List.drop_eq_getElem_cons hlt]
    simp only [List.getElem?_cons_zero, Option.getD_some, List.set_cons_zero]

theorem foldl_pair_range {α β : Type} (f : α → Nat → α) (g : β → Nat → β) (l : List Nat)
    (a : α) (b : β) :
    l.foldl (fun st k => (f st.1 k, g st.2 k)) (a, b) = (l.foldl f a, l.foldl g b) := by
  induction l generalizing a b with
  | nil => rfl
  | cons k l ih => simp only [List.foldl_cons, ih]

theorem foldl_add_eq_sum (l : List F) : l.foldl (· + ·) 0 = l.sum := by
  rw [List.sum_eq_foldl]

theorem div_mod_index {s i j : Nat} (hj : j < s) : (i * s + j) / s = i ∧ (i * s + j) % s = j := by
  have hs : 0 < s := by omega
  constructor
  · rw [Nat.mul_comm, Nat.mul_add_div hs, Nat.div_eq_of_lt hj, Nat.add_zero]
  · rw [Nat.mul_comm, Nat.mul_add_mod, Nat.mod_eq_of_lt hj]

/-- The kernel block stores the normalised Gaussian kernel, converted to `float`. -/
theorem recompute_kernel_buffer (m : Libm F) (filter : Gstsmoothingfilter F) :
    (recompute_kernel m filter).smoothing_buffer
      = some (gaussKernel m filter.kernelsize filter.sigma) := by
  unfold recompute_kernel
  simp only
  congr 1
  generalize hs : (2 * filter.kernelsize + 1).toNat = s
  have hfill : kernel_fill m filter.kernelsize filter.sigma s (List.replicate (s * s) 0)
      = ((gaussRaw m filter.kernelsize filter.sigma).map m.toFloat,
          (gaussRaw m filter.kernelsize filter.sigma).sum) := by
    unfold kernel_fill
    have hcongr : ∀ (st : List F × F) (i : Nat),
        (List.range s).foldl (fun st (j : Nat) =>
          (st.1.set (i * s + j) (m.toFloat (m.exp (m.toFloat (-((((i : Int) - filter.kernelsize)
              * ((i : Int) - filter.kernelsize) + ((j : Int) - filter.kernelsize)
              * ((j : Int) - filter.kernelsize) : Int) : F)
                / m.toFloat (filter.sigma * filter.sigma))))),
            st.2 + m.exp (m.toFloat (-((((i : Int) - filter.kernelsize)
              * ((i : Int) - filter.kernelsize) + ((j : Int) - filter.kernelsize)
              * ((j : Int) - filter.kernelsize) : Int) : F)
                / m.toFloat (filter.sigma * filter.sigma))))) st
        = (List.range s).foldl (fun st (j : Nat) =>
            (fun (st : List F × F) (n : Nat) =>
              (st.1.set n (m.toFloat (gauss m filter.kernelsize filter.sigma (n / s) (n % s))),
                st.2 + gauss m filter.kernelsize filter.sigma (n / s) (n % s))) st (i * s + j))
            st := by
      intro st i
      apply List.foldl_ext
      intro st j hj
      rw [List.mem_range] at hj
      simp only [(div_mod_index hj).1, (div_mod_index hj).2, gauss]
    simp only [hcongr]
    rw [nested_foldl_index (fun (st : List F × F) (n : Nat) =>
      (st.1.set n (m.toFloat (gauss m filter.kernelsize filter.sigma (n / s) (n % s))),
        st.2 + gauss m filter.kernelsize filter.sigma (n / s) (n % s)))]
    rw [foldl_pair_range (fun (b : List F) k =>
        b.set k (m.toFloat (gauss m filter.kernelsize filter.sigma (k / s) (k % s))))
      (fun (c : F) k => c + gauss m filter.kernelsize filter.sigma (k / s) (k % s)),
      foldl_set_range _ _ _ (by simp)]
    have h2 : (List.range (s * s)).foldl
        (fun (c : F) k => c + gauss m filter.kernelsize filter.sigma (k / s) (k % s)) 0
        = (gaussRaw m filter.kernelsize filter.sigma).sum := by
      unfold gaussRaw
      simp only [hs]
      rw [← foldl_add_eq_sum, List.foldl_map]
    rw [h2]
    unfold gaussRaw
    simp [hs]
  rw [hfill]
  simp only
  unfold kernel_normalise
  rw [nested_foldl_index (fun (buf : List F) (n : Nat) =>
    buf.set n (m.toFloat (buf.getD n 0 / (gaussRaw m filter.kernelsize filter.sigma).sum)))]
  have hlen : ((gaussRaw m filter.kernelsize filter.sigma).map m.toFloat).length = s * s := by
    simp [gaussRaw, hs]
  rw [foldl_normalise_range
    (fun g => m.toFloat (g / (gaussRaw m filter.kernelsize filter.sigma).sum)) _ _ (by omega),
    ← hlen, List.take_length, List.drop_length, List.append_nil, List.map_map]
  rfl

end Kernel

section KernelProps

variable {F : Type} [LinearOrderedField F] [FloorRing F]

theorem length_gaussRaw (m : Libm F) (kernelsize : Int) (sigma : F) :
    (gaussRaw m kernelsize sigma).length
      = (2 * kernelsize + 1).toNat * (2 * kernelsize + 1).toNat := by
  simp [gaussRaw]

theorem length_gaussKernel (m : Libm F) (kernelsize : Int) (sigma : F) :
    (gaussKernel m kernelsize sigma).length
      = (2 * kernelsize + 1).toNat * (2 * kernelsize + 1).toNat := by
  simp [gaussKernel, length_gaussRaw]

theorem gaussRaw_pos {m : Libm F} (hm : m.Sound) (kernelsize : Int) (sigma : F) :
    ∀ f ∈ gaussRaw m kernelsize sigma, 0 < f := by
  intro f hf
  simp only [gaussRaw, List.mem_map] at hf
  obtain ⟨n, -, rfl⟩ := hf
  exact hm.exp_pos _

theorem gaussRaw_sum_pos {m : Libm F} (hm : m.Sound) {kernelsize : Int} (hk : 0 ≤ kernelsize)
    (sigma : F) : 0 < (gaussRaw m kernelsize sigma).sum := by
  apply List.sum_pos _ (gaussRaw_pos hm kernelsize sigma)
  intro h
  have := congrArg List.length h
  rw [length_gaussRaw] at this
  have h1 : 1 ≤ (2 * kernelsize + 1).toNat := by omega
  have h2 : 1 * 1 ≤ (2 * kernelsize + 1).toNat * (2 * kernelsize + 1).toNat :=
    Nat.mul_le_mul h1 h1
  rw [List.length_nil] at this
  omega

/-- The conversion to `float` maps `0` to `0`. -/
theorem float_zero {m : Libm F} (hm : m.Sound) : m.toFloat 0 = 0 :=
  le_antisymm (hm.float_nonpos 0 le_rfl) (hm.float_nonneg 0 le_rfl)

/-- The argument of the exponential of a kernel entry is not positive. -/
theorem gauss_arg_nonpos {m : Libm F} (hm : m.Sound) (sigma : F) (d : Int) (hd : 0 ≤ d) :
    m.toFloat (-(d : F) / m.toFloat (sigma * sigma)) ≤ 0 := by
  apply hm.float_nonpos
  apply div_nonpos_of_nonpos_of_nonneg
  · have : (0 : F) ≤ (d : F) := by exact_mod_cast hd
    linarith
  · exact hm.float_nonneg _ (mul_self_nonneg sigma)

theorem gaussRaw_le_one {m : Libm F} (hm : m.Sound) (kernelsize : Int) (sigma : F) :
    ∀ f ∈ gaussRaw m kernelsize sigma, f ≤ 1 := by
  intro f hf
  simp only [gaussRaw, List.mem_map] at hf
  obtain ⟨n, -, rfl⟩ := hf
  unfold gauss
  exact hm.exp_le_one _ (gauss_arg_nonpos hm sigma _
    (add_nonneg (mul_self_nonneg _) (mul_self_nonneg _)))

/-- The Gaussian value of the centre of the kernel is `1`, so the sum is at least `1`. -/
theorem gaussRaw_sum_ge_one {m : Libm F} (hm : m.Sound) {kernelsize : Int}
    (hk : 0 ≤ kernelsize) (sigma : F) : 1 ≤ (gaussRaw m kernelsize sigma).sum := by
  have hmem : (1 : F) ∈ gaussRaw m kernelsize sigma := by
    simp only [gaussRaw, List.mem_map, List.mem_range]
    have hs : (2 * kernelsize + 1).toNat = 2 * kernelsize.toNat + 1 := by omega
    refine ⟨kernelsize.toNat * (2 * kernelsize + 1).toNat + kernelsize.toNat, ?_, ?_⟩
    · rw [hs]
      nlinarith
    · have hlt : kernelsize.toNat < (2 * kernelsize + 1).toNat := by omega
      rw [(div_mod_index hlt).1, (div_mod_index hlt).2]
      unfold gauss
      have h0 : ((kernelsize.toNat : Nat) : Int) - kernelsize = 0 := by omega
      rw [h0]
      simp only [mul_zero, add_zero, Int.cast_zero, neg_zero, zero_div]
      rw [float_zero hm, hm.exp_zero]
  exact List.single_le_sum (fun x hx => le_of_lt (gaussRaw_pos hm kernelsize sigma x hx)) 1 hmem

/-- With an exact conversion to `float` the weights of the recomputed kernel add up to `1`. -/
theorem gaussKernel_sum {m : Libm F} (hm : m.Sound) (hex : ∀ x, m.toFloat x = x)
    {kernelsize : Int} (hk : 0 ≤ kernelsize) (sigma : F) :
    (gaussKernel m kernelsize sigma).sum = 1 := by
  unfold gaussKernel
  have h := gaussRaw_sum_pos hm hk sigma
  simp only [hex, div_eq_mul_inv]
  rw [List.sum_map_mul_right, List.map_id', mul_inv_cancel₀ (ne_of_gt h)]

/-- Every weight of the recomputed kernel lies in `[0, 1]`. -/
theorem gaussKernel_range {m : Libm F} (hm : m.Sound) {kernelsize : Int} (hk : 0 ≤ kernelsize)
    (sigma : F) : ∀ w ∈ gaussKernel m kernelsize sigma, 0 ≤ w ∧ w ≤ 1 := by
  intro w hw
  simp only [gaussKernel, List.mem_map] at hw
  obtain ⟨f, hf, rfl⟩ := hw
  have hS := gaussRaw_sum_ge_one hm hk sigma
  have hS0 : 0 < (gaussRaw m kernelsize sigma).sum := lt_of_lt_of_le zero_lt_one hS
  have hf0 := gaussRaw_pos hm kernelsize sigma f hf
  have hg0 := hm.float_nonneg f hf0.le
  have hg1 := hm.float_le_one f (gaussRaw_le_one hm kernelsize sigma f hf)
  refine ⟨hm.float_nonneg _ (div_nonneg hg0 hS0.le), hm.float_le_one _ ?_⟩
  rw [div_le_one hS0]
  exact le_trans hg1 hS

/-- Two lists of values that differ entry by entry by at most `c1 * k x + c2` have sums that
differ by at most `c1` times the second sum plus `c2` times the length. -/
theorem abs_sum_map_sub_le {α : Type} (l : List α) (h k : α → F) (c1 c2 : F)
    (H : ∀ x ∈ l, |h x - k x| ≤ c1 * k x + c2) :
    |(l.map h).sum - (l.map k).sum| ≤ c1 * (l.map k).sum + (l.length : F) * c2 := by
  induction l with
  | nil => simp
  | cons x l ih =>
    have h1 := H x (List.mem_cons_self _ _)
    have h2 := ih (fun y hy => H y (List.mem_cons_of_mem _ hy))
    simp only [List.map_cons, List.sum_cons, List.length_cons]
    push_cast
    have h3 : h x + (l.map h).sum - (k x + (l.map k).sum)
        = (h x - k x) + ((l.map h).sum - (l.map k).sum) := by ring
    rw [h3]
    calc |(h x - k x) + ((l.map h).sum - (l.map k).sum)|
        ≤ |h x - k x| + |(l.map h).sum - (l.map k).sum| := abs_add _ _
      _ ≤ (c1 * k x + c2) + (c1 * (l.map k).sum + (l.length : F) * c2) := add_le_add h1 h2
      _ = c1 * (k x + (l.map k).sum) + ((l.length : F) + 1) * c2 := by ring

/-- The weight stored for a Gaussian value `f`, with the sum `S` of the values at least `1`,
differs from the quotient `f / S` by at most `(2 / 2 ^ 24 + 1 / 2 ^ 48) * (f / S)` plus
`3 / 2 ^ 150`. -/
theorem weight_error {m : Libm F} (hm : m.Sound) {f S : F} (hf0 : 0 ≤ f) (hf1 : f ≤ 1)
    (hS : 1 ≤ S) :
    |m.toFloat (m.toFloat f / S) - f / S|
      ≤ (2 / 2 ^ 24 + 1 / 2 ^ 48) * (f / S) + 3 / 2 ^ 150 := by
  have hS0 : (0 : F) < S := lt_of_lt_of_le zero_lt_one hS
  have hg0 := hm.float_nonneg f hf0
  have hg1 := hm.float_le_one f hf1
  have hq0 : 0 ≤ m.toFloat f / S := div_nonneg hg0 hS0.le
  have hq1 : m.toFloat f / S ≤ 1 := by
    rw [div_le_one hS0]
    exact le_trans hg1 hS
  have hbig : (1 : F) ≤ 2 ^ 100 := one_le_pow₀ (by norm_num)
  have e1 := hm.float_err f (by rw [abs_of_nonneg hf0]; exact le_trans hf1 hbig)
  have e2 := hm.float_err (m.toFloat f / S) (by rw [abs_of_nonneg hq0]; exact le_trans hq1 hbig)
  rw [abs_of_nonneg hf0] at e1
  rw [abs_of_nonneg hq0] at e2
  have hr0 : 0 ≤ f / S := div_nonneg hf0 hS0.le
  have hd : |m.toFloat f / S - f / S| ≤ (f / 2 ^ 24 + 1 / 2 ^ 150) / S := by
    rw [← sub_div, abs_div, abs_of_pos hS0]
    exact div_le_div_of_nonneg_right e1 hS0.le
  have hd2 : (f / 2 ^ 24 + 1 / 2 ^ 150) / S ≤ (f / S) / 2 ^ 24 + 1 / 2 ^ 150 := by
    have h1 : (f / 2 ^ 24 + 1 / 2 ^ 150) / S = (f / S) / 2 ^ 24 + (1 / 2 ^ 150) / S := by
      rw [add_div, div_right_comm]
    rw [h1]
    have h2 : (1 / 2 ^ 150 : F) / S ≤ 1 / 2 ^ 150 := div_le_self (by positivity) hS
    linarith
  have hq : m.toFloat f / S ≤ f / S + ((f / S) / 2 ^ 24 + 1 / 2 ^ 150) := by
    have := (abs_le.1 (le_trans hd hd2)).2
    linarith
  have htri : |m.toFloat (m.toFloat f / S) - f / S|
      ≤ |m.toFloat (m.toFloat f / S) - m.toFloat f / S| + |m.toFloat f / S - f / S| := by
    have : m.toFloat (m.toFloat f / S) - f / S
        = (m.toFloat (m.toFloat f / S) - m.toFloat f / S) + (m.toFloat f / S - f / S) := by ring
    rw [this]
    exact abs_add _ _
  have hsmall : (f / S + ((f / S) / 2 ^ 24 + 1 / 2 ^ 150)) / 2 ^ 24
      ≤ (f / S) / 2 ^ 24 + (f / S) / 2 ^ 48 + 1 / 2 ^ 150 := by
    have h1 : (f / S + ((f / S) / 2 ^ 24 + 1 / 2 ^ 150)) / 2 ^ 24
        = (f / S) / 2 ^ 24 + (f / S) / 2 ^ 48 + (1 / 2 ^ 150) / 2 ^ 24 := by
      ring
    rw [h1]
    have h2 : (1 / 2 ^ 150 : F) / 2 ^ 24 ≤ 1 / 2 ^ 150 :=
      div_le_self (by positivity) (one_le_pow₀ (by norm_num))
    linarith
  have hq' : (m.toFloat f / S) / 2 ^ 24 ≤ (f / S + ((f / S) / 2 ^ 24 + 1 / 2 ^ 150)) / 2 ^ 24 :=
    div_le_div_of_nonneg_right hq (by positivity)
  have hfin : (2 / 2 ^ 24 + 1 / 2 ^ 48) * (f / S) + 3 / 2 ^ 150
      = ((f / S) / 2 ^ 24 + (f / S) / 2 ^ 48 + 1 / 2 ^ 150) + 1 / 2 ^ 150
        + ((f / S) / 2 ^ 24 + 1 / 2 ^ 150) := by ring
  rw [hfin]
  linarith [le_trans hd hd2]

/-- The weights of the recomputed kernel add up to `1` within `3 / 2 ^ 24`, for a kernel of
at most 25 weights. -/
theorem gaussKernel_sum_near_one {m : Libm F} (hm : m.Sound) {kernelsize : Int}
    (hk : 0 ≤ kernelsize) (hk2 : kernelsize ≤ 2) (sigma : F) :
    |(gaussKernel m kernelsize sigma).sum - 1| ≤ 3 / 2 ^ 24 := by
  have hS := gaussRaw_sum_ge_one hm hk sigma
  have hS0 : 0 < (gaussRaw m kernelsize sigma).sum := lt_of_lt_of_le zero_lt_one hS
  have hone : ((gaussRaw m kernelsize sigma).map
      fun f => f / (gaussRaw m kernelsize sigma).sum).sum = 1 := by
    simp only [div_eq_mul_inv]
    rw [List.sum_map_mul_right, List.map_id', mul_inv_cancel₀ (ne_of_gt hS0)]
  have h := abs_sum_map_sub_le (gaussRaw m kernelsize sigma)
    (fun f => m.toFloat (m.toFloat f / (gaussRaw m kernelsize sigma).sum))
    (fun f => f / (gaussRaw m kernelsize sigma).sum) (2 / 2 ^ 24 + 1 / 2 ^ 48) (3 / 2 ^ 150)
    (fun f hf => weight_error hm (gaussRaw_pos hm kernelsize sigma f hf).le
      (gaussRaw_le_one hm kernelsize sigma f hf) hS)
  rw [hone, length_gaussRaw] at h
  have hn : (((2 * kernelsize + 1).toNat * (2 * kernelsize + 1).toNat : Nat) : F) ≤ 25 := by
    have h1 : (2 * kernelsize + 1).toNat ≤ 5 := by omega
    have h2 : (2 * kernelsize + 1).toNat * (2 * kernelsize + 1).toNat ≤ 5 * 5 :=
      Nat.mul_le_mul h1 h1
    exact_mod_cast h2
  have hc : (((2 * kernelsize + 1).toNat * (2 * kernelsize + 1).toNat : Nat) : F)
      * (3 / 2 ^ 150) ≤ 25 * (3 / 2 ^ 150) :=
    mul_le_mul_of_nonneg_right hn (by positivity)
  have hnum : (2 / 2 ^ 24 + 1 / 2 ^ 48) * 1 + 25 * (3 / 2 ^ 150) ≤ (3 / 2 ^ 24 : F) := by
    norm_num
  unfold gaussKernel
  linarith

/-- The entry `i * s + j` of the recomputed kernel. -/
theorem gaussKernel_entry (m : Libm F) (kernelsize : Int) (sigma : F) {i j : Nat}
    (hi : i < (2 * kernelsize + 1).toNat) (hj : j < (2 * kernelsize + 1).toNat) :
    (gaussKernel m kernelsize sigma)[i * (2 * kernelsize + 1).toNat + j]?
      = some (m.toFloat (m.toFloat (gauss m kernelsize sigma i j)
          / (gaussRaw m kernelsize sigma).sum)) := by
  have hlt : i * (2 * kernelsize + 1).toNat + j
      < (2 * kernelsize + 1).toNat * (2 * kernelsize + 1).toNat := by
    have h1 : (i + 1) * (2 * kernelsize + 1).toNat
        ≤ (2 * kernelsize + 1).toNat * (2 * kernelsize + 1).toNat := Nat.mul_le_mul_right _ hi
    have h2 : (i + 1) * (2 * kernelsize + 1).toNat
        = i * (2 * kernelsize + 1).toNat + (2 * kernelsize + 1).toNat := by ring
    omega
  unfold gaussKernel
  rw [List.getElem?_map]
  unfold gaussRaw
  simp only
  rw [List.getElem?_map, List.getElem?_range hlt]
  simp only [Option.map_some', (div_mod_index hj).1, (div_mod_index hj).2]

/-- The sum of a list indexed row by row as the double sum over the rows and columns. -/
theorem sum_map_div_mod (φ : Nat → Nat → F) (s r : Nat) :
    ((List.range (r * s)).map fun n => φ (n / s) (n % s)).sum
      = ∑ i in Finset.range r, ∑ j in Finset.range s, φ i j := by
  induction r with
  | zero => simp
  | succ r ih =>
    rw [Nat.succ_mul, List.range_add, List.map_append, List.sum_append, ih,
      Finset.sum_range_succ, List.map_map]
    congr 1
    have inner : ∀ t, t ≤ s →
        ((List.range t).map ((fun n => φ (n / s) (n % s)) ∘ fun x => r * s + x)).sum
          = ∑ j in Finset.range t, φ r j := by
      intro t
      induction t with
      | zero => simp
      | succ t iht =>
        intro ht
        rw [List.range_succ, List.map_append, List.sum_append, iht (by omega),
          Finset.sum_range_succ]
        simp only [List.map_cons, List.map_nil, List.sum_cons, List.sum_nil, add_zero,
          Function.comp_apply, (div_mod_index (show t < s by omega)).1,
          (div_mod_index (show t < s by omega)).2]
    exact inner s le_rfl

/-- An entry of the recomputed kernel read with a default. -/
theorem gaussKernel_getD (m : Libm F) (kernelsize : Int) (sigma : F) {i j : Nat}
    (hi : i < (2 * kernelsize + 1).toNat) (hj : j < (2 * kernelsize + 1).toNat) :
    (gaussKernel m kernelsize sigma).getD (i * (2 * kernelsize + 1).toNat + j) 0
      = m.toFloat (m.toFloat (gauss m kernelsize sigma i j)
          / (gaussRaw m kernelsize sigma).sum) := by
  rw [List.getD_eq_getElem?_getD, gaussKernel_entry m kernelsize sigma hi hj]
  rfl

/-- The sum of the weights of the recomputed kernel as the double sum over the rows and
columns. -/
theorem gaussKernel_sum_eq (m : Libm F) (kernelsize : Int) (sigma : F) :
    ∑ i in Finset.range (2 * kernelsize + 1).toNat,
      ∑ j in Finset.range (2 * kernelsize + 1).toNat,
        (gaussKernel m kernelsize sigma).getD (i * (2 * kernelsize + 1).toNat + j) 0
      = (gaussKernel m kernelsize sigma).sum := by
  have h1 : ∑ i in Finset.range (2 * kernelsize + 1).toNat,
      ∑ j in Finset.range (2 * kernelsize + 1).toNat,
        (gaussKernel m kernelsize sigma).getD (i * (2 * kernelsize + 1).toNat + j) 0
      = ∑ i in Finset.range (2 * kernelsize + 1).toNat,
          ∑ j in Finset.range (2 * kernelsize + 1).toNat,
            m.toFloat (m.toFloat (gauss m kernelsize sigma i j)
              / (gaussRaw m kernelsize sigma).sum) := by
    apply Finset.sum_congr rfl
    intro i hi
    apply Finset.sum_congr rfl
    intro j hj
    rw [Finset.mem_range] at hi hj
    exact gaussKernel_getD m kernelsize sigma hi hj
  rw [h1, ← sum_map_div_mod (fun i j => m.toFloat (m.toFloat (gauss m kernelsize sigma i j)
    / (gaussRaw m kernelsize sigma).sum))]
  unfold gaussKernel
  congr 1
  unfold gaussRaw
  rw [List.map_map]
  rfl

/-- The weights of the recomputed kernel, read row by row, add up to `1` within
`3 / 2 ^ 24`. -/
theorem gaussKernel_double_sum {m : Libm F} (hm : m.Sound) {kernelsize : Int}
    (hk : 0 ≤ kernelsize) (hk2 : kernelsize ≤ 2) (sigma : F) :
    |∑ i in Finset.range (2 * kernelsize + 1).toNat,
      ∑ j in Finset.range (2 * kernelsize + 1).toNat,
        (gaussKernel m kernelsize sigma).getD (i * (2 * kernelsize + 1).toNat + j) 0 - 1|
      ≤ 3 / 2 ^ 24 := by
  rw [gaussKernel_sum_eq]
  exact gaussKernel_sum_near_one hm hk hk2 sigma

end KernelProps

section Reach

variable {F : Type} [LinearOrderedField F] [FloorRing F]

theorem recompute_kernel_fields (m : Libm F) (filter : Gstsmoothingfilter F) :
    (recompute_kernel m filter).kernelsize = filter.kernelsize ∧
    (recompute_kernel m filter).sigma = filter.sigma ∧
    (recompute_kernel m filter).width = filter.width ∧
    (recompute_kernel m filter).height = filter.height ∧
    (recompute_kernel m filter).stride = filter.stride ∧
    (recompute_kernel m filter).valchanged = 0 ∧
    (recompute_kernel m filter).forward_gamma = filter.forward_gamma ∧
    (recompute_kernel m filter).inverse_gamma = filter.inverse_gamma :=
  ⟨rfl, rfl, rfl, rfl, rfl, rfl, rfl, rfl⟩

theorem kernel_stage_fields (m : Libm F) (filter : Gstsmoothingfilter F) :
    (kernel_stage m filter).kernelsize = filter.kernelsize ∧
    (kernel_stage m filter).sigma = filter.sigma ∧
    (kernel_stage m filter).width = filter.width ∧
    (kernel_stage m filter).height = filter.height ∧
    (kernel_stage m filter).stride = filter.stride ∧
    (kernel_stage m filter).forward_gamma = filter.forward_gamma ∧
    (kernel_stage m filter).inverse_gamma = filter.inverse_gamma := by
  unfold kernel_stage
  split_ifs <;> exact ⟨rfl, rfl, rfl, rfl, rfl, rfl, rfl⟩

/-- The filter instance that a returning call of the chain function leaves behind. -/
theorem chain_filter {m : Libm F} {filter : Gstsmoothingfilter F} {img : List Nat}
    {r : ChainResult F} (h : gst_smoothingfilter_chain m filter img = some r) :
    r.filter = kernel_stage m filter ∧
      r.recomputed = decide (filter.kernelsize ≠ 0 ∧ filter.valchanged ≠ 0) := by
  unfold gst_smoothingfilter_chain at h
  unfold kernel_stage
  by_cases hk : filter.kernelsize = 0
  · rw [if_pos hk] at h
    cases h
    simp [hk]
  · rw [if_neg hk] at h
    rw [if_neg hk]
    simp only at h
    split_ifs at h with h1 h2 h2 <;>
      simp only [Option.map_eq_some'] at h <;>
      obtain ⟨img', -, rfl⟩ := h <;> simp [hk, h1]

theorem kernel_stage_invariant {m : Libm F} {filter : Gstsmoothingfilter F}
    (h : Invariant m filter) : Invariant m (kernel_stage m filter) := by
  unfold kernel_stage
  split_ifs with h1 h2
  · exact h
  · exact ⟨h.kernelsize_range, h.sigma_range, h.forward, h.inverse, h.stride,
      fun _ => recompute_kernel_buffer m filter⟩
  · exact h

/-- Every reachable state satisfies the invariant. -/
theorem Reachable.invariant {m : Libm F} {filter : Gstsmoothingfilter F}
    (h : Reachable m filter) : Invariant m filter := by
  induction h with
  | init =>
    refine ⟨?_, ?_, rfl, rfl, ?_, ?_⟩
    · show (0 : Int) ≤ DEFAULT_PROP_KERNELSIZE ∧ DEFAULT_PROP_KERNELSIZE ≤ 2
      decide
    · show (1 : F) / 10 ≤ DEFAULT_PROP_SIGMA F ∧ DEFAULT_PROP_SIGMA F ≤ 100
      unfold DEFAULT_PROP_SIGMA
      constructor <;> norm_num
    · show (0 : Int) = wrap32 (0 * 3)
      decide
    · intro h0
      have h1 : (1 : Int) = 0 := h0
      exact absurd h1 (by decide)
  | set_kernelsize val _ h0 h2 ih =>
    simp only [gst_smoothingfilter_set_property]
    split_ifs with hne
    · exact ⟨⟨h0, h2⟩, ih.sigma_range, ih.forward, ih.inverse, ih.stride,
        fun h => absurd (show (1 : Int) = 0 from h) (by decide)⟩
    · exact ih
  | set_sigma val _ h0 h2 ih =>
    simp only [gst_smoothingfilter_set_property]
    split_ifs with hne
    · exact ⟨ih.kernelsize_range, ⟨h0, h2⟩, ih.forward, ih.inverse, ih.stride,
        fun h => absurd (show (1 : Int) = 0 from h) (by decide)⟩
    · exact ih
  | caps width height _ ih =>
    unfold gst_smoothingfilter_sink_event
    rcases width with _ | w <;> rcases height with _ | h <;>
      exact ⟨ih.kernelsize_range, ih.sigma_range, ih.forward, ih.inverse, rfl, ih.clean⟩
  | chain img r _ hr ih =>
    rw [(chain_filter hr).1]
    exact kernel_stage_invariant ih

/-- After the kernel block of a call with `kernelsize` not `0`, the stored kernel is the
kernel of the stored parameters. -/
theorem kernel_stage_buffer {m : Libm F} {filter : Gstsmoothingfilter F}
    (h : Invariant m filter) (hk : filter.kernelsize ≠ 0) :
    (kernel_stage m filter).smoothing_buffer
      = some (gaussKernel m filter.kernelsize filter.sigma) := by
  unfold kernel_stage
  rw [if_neg hk]
  split_ifs with h1
  · exact recompute_kernel_buffer m filter
  · exact h.clean (not_not.1 h1)

theorem forward_entry_range {m : Libm F} (hm : m.Sound) :
    ∀ g ∈ (gst_smoothingfilter_init m).forward_gamma, 0 ≤ g ∧ g ≤ 4096 := by
  intro g hg
  simp only [gst_smoothingfilter_init, create_gamma_lut, List.mem_map, List.mem_range] at hg
  obtain ⟨i, hi, rfl⟩ := hg
  have hi' : (i : F) ≤ 255 := by
    have h256 : i < 256 := hi
    have : i ≤ 255 := by omega
    exact_mod_cast this
  have hi0 : (0 : F) ≤ (i : F) := Nat.cast_nonneg i
  have hb0 : (0 : F) ≤ (i : F) / FACTOR F + OFFSET F := by
    unfold FACTOR OFFSET
    exact add_nonneg (div_nonneg hi0 (by norm_num)) (by norm_num)
  have hb1 : (i : F) / FACTOR F + OFFSET F ≤ 1 := by
    unfold FACTOR OFFSET
    rw [div_add' _ _ _ (by norm_num), div_le_one (by norm_num)]
    linarith
  have hγ : (0 : F) ≤ GAMMA F := by
    unfold GAMMA
    norm_num
  have h1 := hm.pow_nonneg _ (GAMMA F) hb0
  have h2 := hm.pow_le_one _ (GAMMA F) hb0 hb1 hγ
  have h4096 : ((OUT_RANGE : Nat) : F) = 4096 := by
    unfold OUT_RANGE
    norm_num
  rw [h4096]
  constructor
  · positivity
  · linarith

/-- The tables are usable after the kernel block of a call on a reachable state with
`kernelsize` not `0`. -/
theorem kernel_stage_tablesOk {m : Libm F} (hm : m.Sound) {filter : Gstsmoothingfilter F}
    (h : Invariant m filter) (hk : filter.kernelsize ≠ 0) :
    TablesOk (kernel_stage m filter) (2 * filter.kernelsize + 1).toNat := by
  obtain ⟨-, -, -, -, -, hfg, hig⟩ := kernel_stage_fields m filter
  refine ⟨?_, ?_, ?_, ⟨_, kernel_stage_buffer h hk, length_gaussKernel _ _ _, fun w hw => ?_⟩⟩
  · rw [hfg, h.forward]
    simp [gst_smoothingfilter_init, create_gamma_lut, IN_RANGE]
  · rw [hig, h.inverse]
    simp [gst_smoothingfilter_init, create_gamma_lut, OUT_RANGE]
  · rw [hfg, h.forward]
    exact forward_entry_range hm
  · exact gaussKernel_range hm h.kernelsize_range.1 filter.sigma w hw

/-- The truncated third of a `gint`: its double fits a `gint`. -/
theorem tdiv_three_range {n : Int} (h0 : -2147483648 ≤ n) (h1 : n < 2147483648) :
    -1073741824 ≤ n.tdiv 3 ∧ n.tdiv 3 ≤ 1073741823 := by
  rcases le_total 0 n with hn | hn
  · rw [Int.tdiv_eq_ediv hn (by decide)]
    omega
  · have h := Int.tdiv_eq_ediv (show (0 : Int) ≤ -n by omega) (show (0 : Int) ≤ 3 by decide)
    rw [Int.neg_tdiv] at h
    omega

/-- The pitch `stride / 3` of a state that satisfies the invariant: its double fits a
`gint`. -/
theorem Invariant.pitch_range {m : Libm F} {filter : Gstsmoothingfilter F}
    (h : Invariant m filter) :
    -1073741824 ≤ filter.stride.tdiv 3 ∧ filter.stride.tdiv 3 ≤ 1073741823 := by
  have hr := wrap32_range (filter.width * 3)
  rw [← h.stride] at hr
  exact tdiv_three_range hr.1 hr.2

end Reach

section Chain

variable {F : Type} [LinearOrderedField F] [FloorRing F]

/-- The chain function with `kernelsize` not `0`, in terms of the kernel block and of the two
convolution branches. -/
theorem chain_eq (m : Libm F) (filter : Gstsmoothingfilter F) (img : List Nat)
    (hk : filter.kernelsize ≠ 0) :
    gst_smoothingfilter_chain m filter img
      = (if filter.kernelsize = 1 then
          convolve_fast (kernel_stage m filter) (2 * filter.kernelsize + 1).toNat
            (filter.stride.tdiv 3) img
        else
          convolve_generic (kernel_stage m filter) (2 * filter.kernelsize + 1).toNat
            (filter.stride.tdiv 3) img).map
        fun img' => ⟨kernel_stage m filter, img', decide (filter.valchanged ≠ 0)⟩ := by
  have hs : (if filter.valchanged ≠ 0 then recompute_kernel m filter else filter)
      = kernel_stage m filter := by
    unfold kernel_stage
    rw [if_neg hk]
  unfold gst_smoothingfilter_chain
  rw [if_neg hk]
  simp only [hs, (kernel_stage_fields m filter).1]
  split_ifs <;> rfl

/-- The chain function on a reachable state with `kernelsize` not `0`, a stride of
`3 * width`, a frame of fewer than `2 ^ 31` bytes and a buffer that holds the whole frame: the
call returns, every interior pixel receives the bytes computed from the input image, and
every other byte is unchanged. -/
theorem chain_spec {m : Libm F} (hm : m.Sound) {filter : Gstsmoothingfilter F}
    (h : Invariant m filter) (hk : filter.kernelsize ≠ 0) (img : List Nat)
    (hs : filter.stride = 3 * filter.width)
    (hfit : filter.stride * filter.height < 2147483648)
    (hlen : filter.stride * filter.height ≤ (img.length : Int)) :
    ∃ r, gst_smoothingfilter_chain m filter img = some r ∧
      r.filter = kernel_stage m filter ∧
      r.img.length = img.length ∧
      ∀ n, r.img[n]?
        = if ((n / 3 : Nat) : Int) ∈ rasterPtrs filter.width
              (filter.height - ((2 * filter.kernelsize + 1).toNat : Int)).toNat
              (filter.width - ((2 * filter.kernelsize + 1).toNat : Int)).toNat
          then some (outByte (kernel_stage m filter) img
            (genericTaps (2 * filter.kernelsize + 1).toNat filter.width ((n / 3 : Nat) : Int))
            (n % 3))
          else img[n]? := by
  have ht := kernel_stage_tablesOk hm h hk
  obtain ⟨hfk, -, hfw, hfh, -, -, -⟩ := kernel_stage_fields m filter
  have hprange := h.pitch_range
  have hpitch : filter.stride.tdiv 3 = filter.width := by
    rw [hs, Int.mul_tdiv_cancel_left _ (by decide)]
  have hlen' : 3 * ((kernel_stage m filter).width * (kernel_stage m filter).height)
      ≤ (img.length : Int) := by
    rw [hfw, hfh, ← mul_assoc, ← hs]
    exact hlen
  have hfit' : (kernel_stage m filter).width * (kernel_stage m filter).height
      < 2147483648 := by
    rw [hfw, hfh]
    rw [hs, mul_assoc] at hfit
    generalize filter.width * filter.height = A at hfit
    omega
  have hs1 : 1 ≤ (2 * filter.kernelsize + 1).toNat := by
    have := h.kernelsize_range
    omega
  have hs32 : (2 * filter.kernelsize + 1).toNat ≤ 32 := by
    have := h.kernelsize_range
    omega
  obtain ⟨final, hf, hfl, hfn⟩ := convolve_generic_spec ht hs1 hs32 img hfit' hlen'
  rw [hfw] at hf hfn
  rw [hfh] at hfn
  refine ⟨⟨kernel_stage m filter, final, decide (filter.valchanged ≠ 0)⟩, ?_, rfl, hfl, hfn⟩
  rw [chain_eq m filter img hk]
  by_cases h1 : filter.kernelsize = 1
  · rw [if_pos h1]
    have h3 : (2 * filter.kernelsize + 1).toNat = 3 := by omega
    rw [h3] at hf ⊢
    rw [convolve_fast_eq_convolve_generic ht.nonneg _ hprange, hpitch, hf]
    rfl
  · rw [if_neg h1, hpitch, hf]
    rfl

end Chain

section Claims

variable {F : Type} [LinearOrderedField F] [FloorRing F]

theorem chain_no_interior (m : Libm F) (filter : Gstsmoothingfilter F) (img : List Nat)
    (hk : 0 ≤ filter.kernelsize)
    (h : filter.width ≤ 2 * filter.kernelsize + 1 ∨ filter.height ≤ 2 * filter.kernelsize + 1) :
    gst_smoothingfilter_chain m filter img
      = some ⟨kernel_stage m filter, img,
          decide (filter.kernelsize ≠ 0 ∧ filter.valchanged ≠ 0)⟩ := by
  by_cases h0 : filter.kernelsize = 0
  · unfold gst_smoothingfilter_chain kernel_stage
    simp [h0]
  · have hs : (((2 * filter.kernelsize + 1).toNat : Nat) : Int) = 2 * filter.kernelsize + 1 := by
      omega
    obtain ⟨-, -, hfw, hfh, -, -, -⟩ := kernel_stage_fields m filter
    have hc := convolve_no_interior (kernel_stage m filter) (2 * filter.kernelsize + 1).toNat
      (filter.stride.tdiv 3) img (by rw [hfw, hfh, hs]; exact h)
    rw [chain_eq m filter img h0]
    split_ifs
    · rw [hc.1]
      simp [h0]
    · rw [hc.2]
      simp [h0]

theorem configure_fields (filter : Gstsmoothingfilter F) (kernelsize : Int) (sigma : F) :
    (configure filter kernelsize sigma).kernelsize = kernelsize ∧
    (configure filter kernelsize sigma).sigma = sigma ∧
    (configure filter kernelsize sigma).smoothing_buffer = filter.smoothing_buffer ∧
    (configure filter kernelsize sigma).width = filter.width ∧
    (configure filter kernelsize sigma).height = filter.height ∧
    (configure filter kernelsize sigma).stride = filter.stride ∧
    (configure filter kernelsize sigma).forward_gamma = filter.forward_gamma ∧
    (configure filter kernelsize sigma).inverse_gamma = filter.inverse_gamma := by
  unfold configure
  simp only [gst_smoothingfilter_set_property]
  split_ifs with h1 h2 h2
  · exact ⟨rfl, rfl, rfl, rfl, rfl, rfl, rfl, rfl⟩
  · exact ⟨rfl, (not_not.1 h2), rfl, rfl, rfl, rfl, rfl, rfl⟩
  · exact ⟨(not_not.1 h1), rfl, rfl, rfl, rfl, rfl, rfl, rfl⟩
  · exact ⟨(not_not.1 h1), (not_not.1 h2), rfl, rfl, rfl, rfl, rfl, rfl⟩

theorem configure_same (filter : Gstsmoothingfilter F) :
    configure filter filter.kernelsize filter.sigma = filter := by
  unfold configure
  simp [gst_smoothingfilter_set_property]

theorem kernel_stage_valchanged (m : Libm F) (filter : Gstsmoothingfilter F)
    (hk : filter.kernelsize ≠ 0) : (kernel_stage m filter).valchanged = 0 := by
  unfold kernel_stage
  rw [if_neg hk]
  split_ifs with h
  · rfl
  · exact not_not.1 h

end Claims

section Float32

variable {F : Type} [LinearOrderedField F] [FloorRing F]

/-- Rounding to the nearest integer moves a value by at most one half. -/
theorem roundHalfEven_err (q : F) : |((roundHalfEven q : Int) : F) - q| ≤ 1 / 2 := by
  have h1 := Int.floor_le q
  have h2 := Int.lt_floor_add_one q
  unfold roundHalfEven
  split_ifs with a b c
  · rw [abs_le]
    constructor <;> linarith
  · rw [abs_le]
    push_cast
    constructor <;> linarith
  · rw [abs_le]
    push_cast at a b ⊢
    constructor <;> linarith
  · rw [abs_le]
    push_cast at a b ⊢
    constructor <;> linarith

theorem roundHalfEven_nonneg {q : F} (h : 0 ≤ q) : 0 ≤ roundHalfEven q := by
  have h1 := (abs_le.1 (roundHalfEven_err q)).1
  have h2 : ((-1 : Int) : F) < ((roundHalfEven q : Int) : F) := by
    push_cast
    linarith
  have := Int.cast_lt.1 h2
  omega

/-- Rounding to the nearest integer does not pass an integer bound. -/
theorem roundHalfEven_le {q : F} {n : Int} (h : q ≤ (n : F)) : roundHalfEven q ≤ n := by
  have h1 := (abs_le.1 (roundHalfEven_err q)).2
  have h2 : ((roundHalfEven q : Int) : F) < ((n + 1 : Int) : F) := by
    push_cast
    linarith
  have := Int.cast_lt.1 h2
  omega

theorem float32_zero : float32 (0 : F) = 0 := by
  unfold float32
  have : roundHalfEven (0 / (2 : F) ^ (max (Int.log 2 |(0 : F)|) (-126) - 23)) = 0 := by
    rw [zero_div]
    unfold roundHalfEven
    simp
  rw [this]
  simp

/-- The conversion to `float` moves a value by at most half a unit in the last place. -/
theorem float32_abs_sub_le (x : F) :
    |float32 x - x| ≤ (2 : F) ^ (max (Int.log 2 |x|) (-126) - 23) / 2 := by
  unfold float32
  generalize max (Int.log 2 |x|) (-126) - 23 = e
  have hP : (0 : F) < (2 : F) ^ e := zpow_pos (by norm_num) e
  have h := roundHalfEven_err (x / (2 : F) ^ e)
  have h1 : ((roundHalfEven (x / (2 : F) ^ e) : Int) : F) * (2 : F) ^ e - x
      = (((roundHalfEven (x / (2 : F) ^ e) : Int) : F) - x / (2 : F) ^ e) * (2 : F) ^ e := by
    rw [sub_mul, div_mul_cancel₀ _ (ne_of_gt hP)]
  rw [h1, abs_mul, abs_of_pos hP]
  calc |((roundHalfEven (x / (2 : F) ^ e) : Int) : F) - x / (2 : F) ^ e| * (2 : F) ^ e
      ≤ 1 / 2 * (2 : F) ^ e := mul_le_mul_of_nonneg_right h hP.le
    _ = (2 : F) ^ e / 2 := by ring

/-- The error of the conversion to `float`: half a unit in the last place of a normal value,
half the least subnormal value below. -/
theorem float32_err (x : F) : |float32 x - x| ≤ |x| / 2 ^ 24 + 1 / 2 ^ 150 := by
  by_cases hx : x = 0
  · rw [hx, float32_zero]
    simp
  have hpos : 0 < |x| := abs_pos.2 hx
  have h := float32_abs_sub_le x
  rcases le_total (Int.log 2 |x|) (-126) with hl | hl
  · rw [max_eq_right hl] at h
    have e1 : (2 : F) ^ ((-126 : Int) - 23) / 2 = 1 / 2 ^ 150 := by
      rw [show ((-126 : Int) - 23) = -(149 : ℕ) by norm_num, zpow_neg, zpow_natCast]
      norm_num
    rw [e1] at h
    have : 0 ≤ |x| / 2 ^ 24 := by positivity
    linarith
  · rw [max_eq_left hl] at h
    have h2 := Int.zpow_log_le_self (b := 2) (by norm_num) hpos
    rw [Nat.cast_ofNat] at h2
    have e1 : (2 : F) ^ (Int.log 2 |x| - 23) / 2 = (2 : F) ^ (Int.log 2 |x|) / 2 ^ 24 := by
      rw [zpow_sub₀ (by norm_num), zpow_ofNat, div_div]
      norm_num
    rw [e1] at h
    have h3 : (2 : F) ^ (Int.log 2 |x|) / 2 ^ 24 ≤ |x| / 2 ^ 24 :=
      div_le_div_of_nonneg_right h2 (by positivity)
    have : (0 : F) ≤ 1 / 2 ^ 150 := by positivity
    linarith

theorem float32_nonneg {x : F} (h : 0 ≤ x) : 0 ≤ float32 x := by
  unfold float32
  apply mul_nonneg
  · have := roundHalfEven_nonneg (q := x / (2 : F) ^ (max (Int.log 2 |x|) (-126) - 23))
      (div_nonneg h (zpow_pos (by norm_num) _).le)
    exact_mod_cast this
  · exact (zpow_pos (by norm_num) _).le

theorem float32_nonpos {x : F} (h : x ≤ 0) : float32 x ≤ 0 := by
  unfold float32
  apply mul_nonpos_of_nonpos_of_nonneg
  · have hq : x / (2 : F) ^ (max (Int.log 2 |x|) (-126) - 23) ≤ ((0 : Int) : F) := by
      rw [Int.cast_zero]
      exact div_nonpos_of_nonpos_of_nonneg h (zpow_pos (by norm_num) _).le
    have := roundHalfEven_le hq
    exact_mod_cast this
  · exact (zpow_pos (by norm_num) _).le

/-- The conversion to `float` of a value that is at most `1` is at most `1`, since `1` is a
`float`. -/
theorem float32_le_one {x : F} (h : x ≤ 1) : float32 x ≤ 1 := by
  rcases le_or_lt x 0 with h0 | h0
  · exact le_trans (float32_nonpos h0) zero_le_one
  have hlog : Int.log 2 |x| ≤ 0 := by
    rw [abs_of_pos h0]
    have := Int.log_mono_right (b := 2) h0 h
    rwa [Int.log_one_right] at this
  unfold float32
  generalize he : max (Int.log 2 |x|) (-126) = e
  have he0 : e ≤ 0 := by
    rw [← he]
    exact max_le hlog (by norm_num)
  have hP : (0 : F) < (2 : F) ^ (e - 23) := zpow_pos (by norm_num) _
  have hN : ((((2 : Int) ^ (23 - e).toNat : Int)) : F) * (2 : F) ^ (e - 23) = 1 := by
    push_cast
    rw [← zpow_natCast, Int.toNat_of_nonneg (by omega), ← zpow_add₀ (by norm_num)]
    rw [show 23 - e + (e - 23) = 0 by ring, zpow_zero]
  have hq : x / (2 : F) ^ (e - 23) ≤ ((((2 : Int) ^ (23 - e).toNat : Int)) : F) := by
    rw [div_le_iff₀ hP, hN]
    exact h
  have hr := roundHalfEven_le hq
  have hr' : ((roundHalfEven (x / (2 : F) ^ (e - 23)) : Int) : F)
      ≤ ((((2 : Int) ^ (23 - e).toNat : Int)) : F) := by exact_mod_cast hr
  calc ((roundHalfEven (x / (2 : F) ^ (e - 23)) : Int) : F) * (2 : F) ^ (e - 23)
      ≤ ((((2 : Int) ^ (23 - e).toNat : Int)) : F) * (2 : F) ^ (e - 23) :=
        mul_le_mul_of_nonneg_right hr' hP.le
    _ = 1 := hN

end Float32

section RealLibm

/-- The real exponential, the real power function and the conversion to binary32 satisfy what
is assumed of the floating point operations. -/
theorem real_sound : Libm.Sound (⟨Real.exp, fun x y => x ^ y, float32⟩ : Libm ℝ) :=
  ⟨Real.exp_pos, Real.exp_zero, fun _ hx => Real.exp_le_one_iff.2 hx,
    fun _ hx => float32_nonneg hx, fun _ hx => float32_nonpos hx,
    fun _ hx => float32_le_one hx, fun x _ => float32_err x,
    fun _ y hx => Real.rpow_nonneg hx y,
    fun _ _ hx hx1 hy => Real.rpow_le_one hx hx1 hy⟩

end RealLibm

section LargeFrame

variable {F : Type} [LinearOrderedField F] [FloorRing F]

end LargeFrame

section ClaimTheorems

variable {F : Type} [LinearOrderedField F] [FloorRing F]

/-- C2. When `kernelsize` is `0` the chain function (`processFrame`) returns the buffer with
every byte unchanged and leaves the filter instance as it is, for every buffer, every frame
geometry, every sigma and either value of the flag `valchanged`. -/
theorem chain_kernelsize_zero_identity (m : Libm F) (filter : Gstsmoothingfilter F)
    (img : List Nat) (hk : filter.kernelsize = 0) :
    gst_smoothingfilter_chain m filter img = some ⟨filter, img, false⟩ := by
  unfold gst_smoothingfilter_chain
  rw [if_pos hk]

/-- Witness of C2: the initial state with `kernelsize` set to `0`, on a buffer of six bytes. -/
theorem chain_kernelsize_zero_identity_witness :
    (gst_smoothingfilter_set_property
        (gst_smoothingfilter_init (⟨Real.exp, fun x y => x ^ y, float32⟩ : Libm ℝ))
        (.PROP_KERNELSIZE 0)).kernelsize = 0 ∧
      gst_smoothingfilter_chain (⟨Real.exp, fun x y => x ^ y, float32⟩ : Libm ℝ)
        (gst_smoothingfilter_set_property
          (gst_smoothingfilter_init (⟨Real.exp, fun x y => x ^ y, float32⟩ : Libm ℝ))
          (.PROP_KERNELSIZE 0)) [10, 20, 30, 40, 50, 60]
        = some ⟨gst_smoothingfilter_set_property
          (gst_smoothingfilter_init (⟨Real.exp, fun x y => x ^ y, float32⟩ : Libm ℝ))
          (.PROP_KERNELSIZE 0), [10, 20, 30, 40, 50, 60], false⟩ :=
  ⟨rfl, chain_kernelsize_zero_identity _ _ _ rfl⟩

/-- C3. For `kernelsize = 1`, on every reachable state of the filter (so for every sigma of
its range), for every frame size and input buffer and for every pitch whose double fits a
`gint` (such is `stride / 3` for every `gint` stride), the fast 3x3 loops and the generic loops
run with `s = 3` return the same buffer (or both fail on a buffer that is too short), and the
chain function, which takes the fast branch, returns what the generic branch returns with the
pitch `stride / 3` of the state. -/
theorem fast_path_eq_generic_path {m : Libm F} (hm : m.Sound) {filter : Gstsmoothingfilter F}
    (hr : Reachable m filter) (hk : filter.kernelsize = 1) (pitch : Int)
    (hp : -1073741824 ≤ pitch ∧ pitch ≤ 1073741823) (img : List Nat) :
    convolve_fast (kernel_stage m filter) 3 pitch img
        = convolve_generic (kernel_stage m filter) 3 pitch img ∧
      gst_smoothingfilter_chain m filter img
        = (convolve_generic (kernel_stage m filter) 3 (filter.stride.tdiv 3) img).map
            fun img' => ⟨kernel_stage m filter, img', decide (filter.valchanged ≠ 0)⟩ := by
  have hk0 : filter.kernelsize ≠ 0 := by omega
  have ht := (kernel_stage_tablesOk hm hr.invariant hk0).nonneg
  refine ⟨convolve_fast_eq_convolve_generic ht pitch hp img, ?_⟩
  rw [chain_eq m filter img hk0, if_pos hk]
  have h3 : (2 * filter.kernelsize + 1).toNat = 3 := by omega
  rw [h3, convolve_fast_eq_convolve_generic ht _ hr.invariant.pitch_range]

/-- Witness of C3: the state after a caps event for a frame of 5 by 5 pixels, which has four
interior pixels, with the pitch `5` and a buffer of 75 bytes; both branches return. -/
theorem fast_path_eq_generic_path_witness :
    (gst_smoothingfilter_sink_event
        (gst_smoothingfilter_init (⟨Real.exp, fun x y => x ^ y, float32⟩ : Libm ℝ))
        (some 5) (some 5)).kernelsize = 1 ∧
    (gst_smoothingfilter_sink_event
        (gst_smoothingfilter_init (⟨Real.exp, fun x y => x ^ y, float32⟩ : Libm ℝ))
        (some 5) (some 5)).stride.tdiv 3 = 5 ∧
    convolve_fast
        (kernel_stage (⟨Real.exp, fun x y => x ^ y, float32⟩ : Libm ℝ)
          (gst_smoothingfilter_sink_event
            (gst_smoothingfilter_init (⟨Real.exp, fun x y => x ^ y, float32⟩ : Libm ℝ))
            (some 5) (some 5)))
        3 5 (List.range 75)
      = convolve_generic
        (kernel_stage (⟨Real.exp, fun x y => x ^ y, float32⟩ : Libm ℝ)
          (gst_smoothingfilter_sink_event
            (gst_smoothingfilter_init (⟨Real.exp, fun x y => x ^ y, float32⟩ : Libm ℝ))
            (some 5) (some 5)))
        3 5 (List.range 75) ∧
    ∃ r, gst_smoothingfilter_chain (⟨Real.exp, fun x y => x ^ y, float32⟩ : Libm ℝ)
        (gst_smoothingfilter_sink_event
          (gst_smoothingfilter_init (⟨Real.exp, fun x y => x ^ y, float32⟩ : Libm ℝ))
          (some 5) (some 5)) (List.range 75) = some r ∧
      (convolve_generic
        (kernel_stage (⟨Real.exp, fun x y => x ^ y, float32⟩ : Libm ℝ)
          (gst_smoothingfilter_sink_event
            (gst_smoothingfilter_init (⟨Real.exp, fun x y => x ^ y, float32⟩ : Libm ℝ))
            (some 5) (some 5)))
        3 5 (List.range 75)).map (fun out => out.length) = some 75 ∧
      r.img.length = 75 := by
  have hreach : Reachable (⟨Real.exp, fun x y => x ^ y, float32⟩ : Libm ℝ)
      (gst_smoothingfilter_sink_event
        (gst_smoothingfilter_init (⟨Real.exp, fun x y => x ^ y, float32⟩ : Libm ℝ))
        (some 5) (some 5)) := Reachable.caps (some 5) (some 5) Reachable.init
  have hst : (gst_smoothingfilter_sink_event
      (gst_smoothingfilter_init (⟨Real.exp, fun x y => x ^ y, float32⟩ : Libm ℝ))
      (some 5) (some 5)).stride.tdiv 3 = 5 := by decide
  obtain ⟨h1, h2⟩ := fast_path_eq_generic_path real_sound hreach rfl 5
    (by decide) (List.range 75)
  obtain ⟨r, h3, -, h5, -⟩ := chain_spec real_sound hreach.invariant (by decide)
    (List.range 75) (by decide) (by decide) (by decide)
  refine ⟨rfl, hst, h1, r, h3, ?_, by simpa using h5⟩
  rw [h2, hst] at h3
  cases hc : convolve_generic
      (kernel_stage (⟨Real.exp, fun x y => x ^ y, float32⟩ : Libm ℝ)
        (gst_smoothingfilter_sink_event
          (gst_smoothingfilter_init (⟨Real.exp, fun x y => x ^ y, float32⟩ : Libm ℝ))
          (some 5) (some 5)))
      3 5 (List.range 75) with
  | none =>
    rw [hc] at h3
    exact absurd h3 (by simp)
  | some out =>
    rw [hc] at h3
    simp only [Option.map_some', Option.some.injEq] at h3
    rw [← h3] at h5
    simpa using h5

/-- C5. For every `kernelsize` in `0 .. 2` and every sigma, the kernel stored by the kernel
block has `(2 * kernelsize + 1) ^ 2` weights; their sum is within `1e-6` of `1` (within
`3 / 2 ^ 24`), and it is exactly `1` when the conversion to `float` is exact, that is, over
the reals. -/
theorem recomputed_kernel_sum_one {m : Libm F} (hm : m.Sound) (filter : Gstsmoothingfilter F)
    (hk0 : 0 ≤ filter.kernelsize) (hk2 : filter.kernelsize ≤ 2) :
    ∃ K, (recompute_kernel m filter).smoothing_buffer = some K ∧
      (K.length : Int) = (2 * filter.kernelsize + 1) ^ 2 ∧
      |K.sum - 1| ≤ 3 / 2 ^ 24 ∧ |K.sum - 1| ≤ 1 / 1000000 ∧
      ((∀ x, m.toFloat x = x) → K.sum = 1) := by
  have hnear := gaussKernel_sum_near_one hm hk0 hk2 filter.sigma
  refine ⟨_, recompute_kernel_buffer m filter, ?_, hnear, ?_,
    fun hex => gaussKernel_sum hm hex hk0 _⟩
  · rw [length_gaussKernel]
    push_cast
    rw [Int.toNat_of_nonneg (by omega)]
    ring
  · refine le_trans hnear ?_
    norm_num

/-- Witness of C5: the kernel recomputed in the initial state (`kernelsize = 1`,
`sigma = 1.5`), with the conversion to binary32. -/
theorem recomputed_kernel_sum_one_witness :
    (0 : Int) ≤ (gst_smoothingfilter_init
        (⟨Real.exp, fun x y => x ^ y, float32⟩ : Libm ℝ)).kernelsize ∧
      (gst_smoothingfilter_init
        (⟨Real.exp, fun x y => x ^ y, float32⟩ : Libm ℝ)).kernelsize ≤ 2 ∧
      ∃ K, (recompute_kernel (⟨Real.exp, fun x y => x ^ y, float32⟩ : Libm ℝ)
          (gst_smoothingfilter_init
            (⟨Real.exp, fun x y => x ^ y, float32⟩ : Libm ℝ))).smoothing_buffer
            = some K ∧
        (K.length : Int)
          = (2 * (gst_smoothingfilter_init
              (⟨Real.exp, fun x y => x ^ y, float32⟩ : Libm ℝ)).kernelsize + 1) ^ 2 ∧
        |K.sum - 1| ≤ 1 / 1000000 := by
  obtain ⟨K, h1, h2, -, h4, -⟩ := recomputed_kernel_sum_one real_sound
    (gst_smoothingfilter_init (⟨Real.exp, fun x y => x ^ y, float32⟩ : Libm ℝ))
    (by decide) (by decide)
  exact ⟨by decide, by decide, K, h1, h2, h4⟩

end ClaimTheorems

section ClaimTheorems2

variable {F : Type} [LinearOrderedField F] [FloorRing F]

/-- C6. `configure` with the stored `kernelsize` and `sigma` leaves the whole filter instance
unchanged, the flag `valchanged` included, and `configure` never touches the stored kernel.
In the sequence `configure(k, sigma); processFrame; configure(k, sigma); processFrame` the
second `configure` changes nothing and the second `processFrame` does not execute the kernel
block: the instance and its kernel are the ones left by the first `processFrame`. -/
theorem configure_same_no_recompute (m : Libm F) (filter : Gstsmoothingfilter F)
    (kernelsize : Int) (sigma : F) (img1 img2 : List Nat) (r1 r2 : ChainResult F)
    (h1 : gst_smoothingfilter_chain m (configure filter kernelsize sigma) img1 = some r1)
    (h2 : gst_smoothingfilter_chain m (configure r1.filter kernelsize sigma) img2 = some r2) :
    configure filter filter.kernelsize filter.sigma = filter ∧
      (configure filter kernelsize sigma).smoothing_buffer = filter.smoothing_buffer ∧
      configure r1.filter kernelsize sigma = r1.filter ∧
      r2.recomputed = false ∧
      r2.filter = r1.filter := by
  obtain ⟨hck, hcs, hcb, -⟩ := configure_fields filter kernelsize sigma
  have hf1 := (chain_filter h1).1
  obtain ⟨hsk, hss, -⟩ := kernel_stage_fields m (configure filter kernelsize sigma)
  have hsame : configure r1.filter kernelsize sigma = r1.filter := by
    have h := configure_same r1.filter
    rw [hf1] at h ⊢
    rw [hsk, hss, hck, hcs] at h
    exact h
  rw [hsame] at h2
  have hf2 := chain_filter h2
  have hv : r1.filter.kernelsize ≠ 0 → r1.filter.valchanged = 0 := by
    intro hk
    rw [hf1] at hk ⊢
    rw [hsk] at hk
    exact kernel_stage_valchanged m _ hk
  refine ⟨configure_same filter, hcb, hsame, ?_, ?_⟩
  · rw [hf2.2]
    by_cases hk : r1.filter.kernelsize = 0
    · simp [hk]
    · simp [hv hk]
  · rw [hf2.1]
    unfold kernel_stage
    by_cases hk : r1.filter.kernelsize = 0
    · rw [if_pos hk]
    · rw [if_neg hk, if_neg (by rw [hv hk]; exact fun h => h rfl)]

/-- Witness of C6: from the initial state, `configure(2, 3)` and a frame, twice. -/
theorem configure_same_no_recompute_witness :
    ∃ r1 r2 : ChainResult ℝ,
      gst_smoothingfilter_chain (⟨Real.exp, fun x y => x ^ y, float32⟩ : Libm ℝ)
        (configure (gst_smoothingfilter_init (⟨Real.exp, fun x y => x ^ y, float32⟩ : Libm ℝ)) 2 3) []
        = some r1 ∧
      gst_smoothingfilter_chain (⟨Real.exp, fun x y => x ^ y, float32⟩ : Libm ℝ)
        (configure r1.filter 2 3) [] = some r2 ∧
      r2.recomputed = false ∧ r2.filter = r1.filter := by
  have hc := configure_fields
    (gst_smoothingfilter_init (⟨Real.exp, fun x y => x ^ y, float32⟩ : Libm ℝ)) 2 3
  have h1 := chain_no_interior (⟨Real.exp, fun x y => x ^ y, float32⟩ : Libm ℝ)
    (configure (gst_smoothingfilter_init (⟨Real.exp, fun x y => x ^ y, float32⟩ : Libm ℝ)) 2 3) []
    (by rw [hc.1]; decide) (Or.inl (by rw [hc.2.2.2.1, hc.1]; decide))
  have hs := kernel_stage_fields (⟨Real.exp, fun x y => x ^ y, float32⟩ : Libm ℝ)
    (configure (gst_smoothingfilter_init (⟨Real.exp, fun x y => x ^ y, float32⟩ : Libm ℝ)) 2 3)
  have hc2 := configure_fields (kernel_stage (⟨Real.exp, fun x y => x ^ y, float32⟩ : Libm ℝ)
    (configure (gst_smoothingfilter_init (⟨Real.exp, fun x y => x ^ y, float32⟩ : Libm ℝ)) 2 3)) 2 3
  have h2 := chain_no_interior (⟨Real.exp, fun x y => x ^ y, float32⟩ : Libm ℝ)
    (configure (kernel_stage (⟨Real.exp, fun x y => x ^ y, float32⟩ : Libm ℝ)
      (configure (gst_smoothingfilter_init (⟨Real.exp, fun x y => x ^ y, float32⟩ : Libm ℝ)) 2 3))
      2 3) []
    (by rw [hc2.1]; decide)
    (Or.inl (by rw [hc2.2.2.2.1, hs.2.2.1, hc.2.2.2.1, hc2.1]; decide))
  have h := configure_same_no_recompute _ _ 2 3 [] [] _ _ h1 h2
  exact ⟨_, _, h1, h2, h.2.2.2.1, h.2.2.2.2⟩

end ClaimTheorems2

section ClaimTheorems3

variable {F : Type} [LinearOrderedField F] [FloorRing F]

end ClaimTheorems3

section Counter10

end Counter10

section Interior

variable {F : Type} [LinearOrderedField F] [FloorRing F]

theorem sum_map_range {M : Type} [AddCommMonoid M] (g : Nat → M) (s : Nat) :
    ((List.range s).map g).sum = ∑ j in Finset.range s, g j := by
  induction s with
  | zero => simp
  | succ s ih =>
    rw [List.range_succ, List.map_append, List.sum_append, ih, Finset.sum_range_succ]
    simp

theorem sum_flatMap_range {M : Type} [AddCommMonoid M] (g : Nat → Nat → M) (r s : Nat) :
    ((List.range r).flatMap fun i => (List.range s).map (g i)).sum
      = ∑ i in Finset.range r, ∑ j in Finset.range s, g i j := by
  induction r with
  | zero => simp
  | succ r ih =>
    rw [List.range_succ, List.flatMap_append, List.sum_append, ih, Finset.sum_range_succ]
    simp [sum_map_range]

/-- A pixel index `width * y + x` with `x` inside the row determines `x` and `y`. -/
theorem pixel_index_inj {W : Int} {x y x' y' : Nat} (hx : (x : Int) < W) (hx' : (x' : Int) < W)
    (h : W * (y' : Int) + (x' : Int) = W * (y : Int) + (x : Int)) : x' = x ∧ y' = y := by
  have hW : (0 : Int) < W := lt_of_le_of_lt (by positivity) hx
  have key : ∀ a b c d : Nat, (c : Int) < W → W * (a : Int) + (c : Int) = W * (b : Int) + (d : Int)
      → ¬ a < b := by
    intro a b c d hc hab hlt
    have h1 : (a : Int) + 1 ≤ b := by exact_mod_cast hlt
    have h2 : W * ((a : Int) + 1) ≤ W * b := mul_le_mul_of_nonneg_left h1 (le_of_lt hW)
    have h3 : (0 : Int) ≤ (d : Int) := by positivity
    linarith
  have hy : y' = y := by
    rcases lt_trichotomy y' y with hlt | heq | hgt
    · exact absurd hlt (key y' y x' x hx' h)
    · exact heq
    · exact absurd hgt (key y y' x x' hx h.symm)
  subst hy
  have : (x' : Int) = x := by linarith
  exact ⟨by exact_mod_cast this, rfl⟩

theorem byteIndex_div {W : Int} {x y c : Nat} (hc : c < 3) :
    byteIndex W x y c / 3 = (W * (y : Int) + (x : Int)).toNat ∧ byteIndex W x y c % 3 = c := by
  unfold byteIndex
  omega

/-- The accumulated sum of an interior pixel, written over the rows and columns of the
kernel with the explicit table entries. -/
theorem sum_genericTaps {filter : Gstsmoothingfilter F} {s : Nat} (h : TablesOk filter s)
    {K : List F} (hK : filter.smoothing_buffer = some K) (img : List Nat) {x y c : Nat}
    (hc : c < 3) (hy : y < (filter.height - s).toNat) (hx : x < (filter.width - s).toNat)
    (hlen : 3 * (filter.width * filter.height) ≤ (img.length : Int)) :
    ((genericTaps s filter.width (filter.width * (y : Int) + (x : Int))).map
        fun t => ⌊tapVal filter img c t⌋).sum
      = ∑ i in Finset.range s, ∑ j in Finset.range s,
          ⌊filter.forward_gamma.getD
              (clamp_in (img.getD (byteIndex filter.width (x + j) (y + i) c) 0)) 0
            * K.getD (i * s + j) 0⌋ := by
  obtain ⟨K', hK', hKl, -⟩ := h.kernel
  rw [hK] at hK'
  cases hK'
  unfold genericTaps
  rw [List.map_flatMap]
  simp only [List.map_map, Function.comp_def]
  rw [sum_flatMap_range (fun i j => ⌊tapVal filter img c
    (filter.width * (y : Int) + (x : Int) + (i : Int) * filter.width + (j : Int), i * s + j)⌋)]
  apply Finset.sum_congr rfl
  intro i hi
  apply Finset.sum_congr rfl
  intro j hj
  rw [Finset.mem_range] at hi hj
  have hb := tap_index_bound (W := filter.width) (H := filter.height) hy hx hi hj
  have hk : i * s + j < s * s := by
    have : (i + 1) * s ≤ s * s := Nat.mul_le_mul_right s hi
    have : (i + 1) * s = i * s + s := by ring
    omega
  have hidx : filter.width * (y : Int) + (x : Int) + (i : Int) * filter.width + (j : Int)
      = filter.width * ((y + i : Nat) : Int) + ((x + j : Nat) : Int) := by
    push_cast
    ring
  rw [tapVal_of_inbounds (le_trans hb.1 hb.2.1) _ h.fg_len hK (by simp only; omega)]
  · simp only [byteIndex, hidx]
  · have h1 := hb.2.2
    have h0 := le_trans hb.1 hb.2.1
    simp only
    generalize filter.width * filter.height = A at hlen h1
    generalize filter.width * (y : Int) + (x : Int) + (i : Int) * filter.width + (j : Int) = B
      at h1 h0 ⊢
    omega

end Interior

section Interior2

variable {F : Type} [LinearOrderedField F] [FloorRing F]

/-- The bytes of the buffer returned by the chain function on a reachable state with
`kernelsize` not `0`, a stride of `3 * width` and a frame of fewer than `2 ^ 31` bytes: the
value of every channel of every interior pixel, and the bytes of the pixels of the last `s`
rows and columns. -/
theorem chain_pixels {m : Libm F} (hm : m.Sound) {filter : Gstsmoothingfilter F}
    (h : Invariant m filter) (hk : filter.kernelsize ≠ 0) (img : List Nat)
    (hst : filter.stride = 3 * filter.width)
    (hfit : filter.stride * filter.height < 2147483648)
    (hlen : filter.stride * filter.height ≤ (img.length : Int)) :
    ∃ r, gst_smoothingfilter_chain m filter img = some r ∧
      r.filter = kernel_stage m filter ∧
      r.img.length = img.length ∧
      (∀ x y c : Nat, (x : Int) < filter.width - (2 * filter.kernelsize + 1) →
        (y : Int) < filter.height - (2 * filter.kernelsize + 1) → c < 3 →
        r.img[byteIndex filter.width x y c]?
          = some (filter.inverse_gamma.getD
              (min (∑ i in Finset.range (2 * filter.kernelsize + 1).toNat,
                ∑ j in Finset.range (2 * filter.kernelsize + 1).toNat,
                  ⌊filter.forward_gamma.getD
                      (clamp_in (img.getD (byteIndex filter.width (x + j) (y + i) c) 0)) 0
                    * (gaussKernel m filter.kernelsize filter.sigma).getD
                        (i * (2 * filter.kernelsize + 1).toNat + j) 0⌋).toNat 4095) 0 % 256)) ∧
      (∀ x y c : Nat, (x : Int) < filter.width → (y : Int) < filter.height → c < 3 →
        (filter.height - (2 * filter.kernelsize + 1) ≤ y ∨
          filter.width - (2 * filter.kernelsize + 1) ≤ x) →
        r.img[byteIndex filter.width x y c]? = img[byteIndex filter.width x y c]?) := by
  obtain ⟨r, hr, hrf, hrl, hrn⟩ := chain_spec hm h hk img hst hfit hlen
  have ht := kernel_stage_tablesOk hm h hk
  have hK := kernel_stage_buffer h hk
  obtain ⟨-, -, hfw, hfh, -, hfg, hig⟩ := kernel_stage_fields m filter
  have hs : (((2 * filter.kernelsize + 1).toNat : Nat) : Int) = 2 * filter.kernelsize + 1 := by
    have := h.kernelsize_range
    omega
  have hlen' : 3 * (filter.width * filter.height) ≤ (img.length : Int) := by
    rw [← mul_assoc, ← hst]
    exact hlen
  refine ⟨r, hr, hrf, hrl, ?_, ?_⟩
  · intro x y c hx hy hc
    have hx' : x < (filter.width - ((2 * filter.kernelsize + 1).toNat : Int)).toNat := by omega
    have hy' : y < (filter.height - ((2 * filter.kernelsize + 1).toNat : Int)).toNat := by omega
    have hp0 : 0 ≤ filter.width * (y : Int) + (x : Int) := by
      have hW : (0 : Int) ≤ filter.width := by omega
      positivity
    have hdiv := byteIndex_div (W := filter.width) (x := x) (y := y) hc
    have hcast : ((byteIndex filter.width x y c / 3 : Nat) : Int)
        = filter.width * (y : Int) + (x : Int) := by
      rw [hdiv.1, Int.toNat_of_nonneg hp0]
    rw [hrn, hcast, if_pos (mem_rasterPtrs.2 ⟨y, hy', x, hx', rfl⟩), hdiv.2]
    congr 1
    unfold outByte
    have hb := sum_floor_tapVal_bounds ht img c
      (genericTaps (2 * filter.kernelsize + 1).toNat filter.width
        (filter.width * (y : Int) + (x : Int)))
    rw [length_genericTaps] at hb
    have hs32 : (((2 * filter.kernelsize + 1).toNat * (2 * filter.kernelsize + 1).toNat : Nat)
        : Int) ≤ 25 := by
      have := h.kernelsize_range
      have h5 : (2 * filter.kernelsize + 1).toNat ≤ 5 := by omega
      have : (2 * filter.kernelsize + 1).toNat * (2 * filter.kernelsize + 1).toNat ≤ 5 * 5 :=
        Nat.mul_le_mul h5 h5
      exact_mod_cast this
    rw [clamp_out_of_nonneg hb.1 (by linarith [hb.2]), hig]
    have hsum := sum_genericTaps ht hK img hc (by rw [hfh]; exact hy') (by rw [hfw]; exact hx')
      (by rw [hfw, hfh]; exact hlen')
    rw [hfw, hfg] at hsum
    rw [hsum]
  · intro x y c hx hy hc hedge
    have hp0 : 0 ≤ filter.width * (y : Int) + (x : Int) := by
      have hW : (0 : Int) ≤ filter.width := by omega
      positivity
    have hdiv := byteIndex_div (W := filter.width) (x := x) (y := y) hc
    have hcast : ((byteIndex filter.width x y c / 3 : Nat) : Int)
        = filter.width * (y : Int) + (x : Int) := by
      rw [hdiv.1, Int.toNat_of_nonneg hp0]
    rw [hrn, hcast, if_neg]
    intro hmem
    obtain ⟨y', hy', x', hx', heq⟩ := mem_rasterPtrs.1 hmem
    have hx'W : (x' : Int) < filter.width := by omega
    obtain ⟨rfl, rfl⟩ := pixel_index_inj hx hx'W heq
    omega

end Interior2

section ClaimTheorems4

variable {F : Type} [LinearOrderedField F] [FloorRing F]

end ClaimTheorems4

section RealPow

/-- A real power with a rational exponent `p / q` is compared with a bound by comparing
integer powers. -/
theorem le_rpow_div_iff {x c : ℝ} (hx : 0 ≤ x) (hc : 0 ≤ c) (p q : ℕ) (hq : q ≠ 0) :
    c ≤ x ^ ((p : ℝ) / (q : ℝ)) ↔ c ^ q ≤ x ^ p := by
  have hq' : (q : ℝ) ≠ 0 := by exact_mod_cast hq
  have h1 : (x ^ ((p : ℝ) / (q : ℝ))) ^ q = x ^ p := by
    rw [← Real.rpow_natCast, ← Real.rpow_mul hx, div_mul_cancel₀ _ hq', Real.rpow_natCast]
  rw [← h1]
  exact (pow_le_pow_iff_left₀ hc (Real.rpow_nonneg hx _) hq).symm

theorem rpow_div_lt_iff {x c : ℝ} (hx : 0 ≤ x) (hc : 0 ≤ c) (p q : ℕ) (hq : q ≠ 0) :
    x ^ ((p : ℝ) / (q : ℝ)) < c ↔ x ^ p < c ^ q := by
  have hq' : (q : ℝ) ≠ 0 := by exact_mod_cast hq
  have h1 : (x ^ ((p : ℝ) / (q : ℝ))) ^ q = x ^ p := by
    rw [← Real.rpow_natCast, ← Real.rpow_mul hx, div_mul_cancel₀ _ hq', Real.rpow_natCast]
  rw [← h1]
  exact (pow_lt_pow_iff_left₀ (Real.rpow_nonneg hx _) hc hq).symm

theorem gamma_exponent : GAMMA ℝ = ((222 : ℕ) : ℝ) / ((100 : ℕ) : ℝ) := by
  unfold GAMMA
  norm_num

theorem invgamma_exponent : 1 / GAMMA ℝ = ((100 : ℕ) : ℝ) / ((222 : ℕ) : ℝ) := by
  unfold GAMMA
  norm_num

end RealPow

section Tables

variable {F : Type} [LinearOrderedField F] [FloorRing F]

/-- The entry `i` of the forward table built at initialisation. -/
theorem forward_getD (m : Libm F) {i : Nat} (hi : i < 256) :
    (gst_smoothingfilter_init m).forward_gamma.getD i 0
      = 4096 * m.pow ((i : F) / FACTOR F + OFFSET F) (GAMMA F) := by
  have h : (List.range IN_RANGE)[i]? = some i := List.getElem?_range hi
  simp only [gst_smoothingfilter_init, create_gamma_lut, List.getD_eq_getElem?_getD,
    List.getElem?_map, h, Option.map_some', Option.getD_some]
  norm_num [OUT_RANGE]

/-- The entry `v` of the inverse table built at initialisation. -/
theorem inverse_getD (m : Libm F) {v : Nat} (hv : v < 4096) :
    (gst_smoothingfilter_init m).inverse_gamma.getD v 0
      = (trunc (256 * m.pow ((v : F) / 4096) (1 / GAMMA F))).toNat := by
  have h : (List.range OUT_RANGE)[v]? = some v := List.getElem?_range hv
  simp only [gst_smoothingfilter_init, create_gamma_lut, List.getD_eq_getElem?_getD,
    List.getElem?_map, h, Option.map_some', Option.getD_some]
  norm_num [OUT_RANGE, IN_RANGE]

end Tables

section Counter1

end Counter1

section Counter1b

end Counter1b

section RoundTrip

set_option maxRecDepth 100000 in
/-- The certificate holds for every input value. -/
theorem tableCertificate_all : ∀ i < 256, tableCertificate i = true := by decide!

/-- The forward table entry of an input value, as a real power of a rational number. -/
theorem forward_real (i : Nat) (hi : i < 256) :
    (gst_smoothingfilter_init (⟨Real.exp, fun x y => x ^ y, float32⟩ : Libm ℝ)).forward_gamma.getD i 0
      = 4096 * (((100000 * i + 2801898 : ℕ) : ℝ) / ((28302000 : ℕ) : ℝ))
          ^ (((222 : ℕ) : ℝ) / ((100 : ℕ) : ℝ)) := by
  rw [forward_getD _ hi, gamma_exponent]
  show 4096 * ((i : ℝ) / FACTOR ℝ + OFFSET ℝ) ^ (((222 : ℕ) : ℝ) / ((100 : ℕ) : ℝ)) = _
  congr 2
  unfold FACTOR OFFSET
  push_cast
  field_simp
  ring

/-- Rounding `4096 * (n / d) ^ (p / q)`, decided by two comparisons of natural numbers. -/
theorem round_scaled_rpow (n d R p q : ℕ) (hd : 0 < d) (hq : q ≠ 0) (hR : 1 ≤ R)
    (h1 : (2 * R - 1) ^ q * d ^ p ≤ n ^ p * 8192 ^ q)
    (h2 : n ^ p * 8192 ^ q < (2 * R + 1) ^ q * d ^ p) :
    round (4096 * ((n : ℝ) / (d : ℝ)) ^ ((p : ℝ) / (q : ℝ))) = (R : Int) := by
  have hd' : (0 : ℝ) < (d : ℝ) := by exact_mod_cast hd
  have hx : (0 : ℝ) ≤ (n : ℝ) / (d : ℝ) := by positivity
  have hsub : ((2 * R - 1 : ℕ) : ℝ) = 2 * (R : ℝ) - 1 := by
    rw [Nat.cast_sub (by omega)]
    push_cast
    ring
  have h1' : (((2 * R - 1 : ℕ) : ℝ)) ^ q * (d : ℝ) ^ p ≤ (n : ℝ) ^ p * (8192 : ℝ) ^ q := by
    exact_mod_cast h1
  have h2' : (n : ℝ) ^ p * (8192 : ℝ) ^ q < (2 * (R : ℝ) + 1) ^ q * (d : ℝ) ^ p := by
    exact_mod_cast h2
  have hlo : ((2 * R - 1 : ℕ) : ℝ) / 8192 ≤ ((n : ℝ) / (d : ℝ)) ^ ((p : ℝ) / (q : ℝ)) := by
    rw [le_rpow_div_iff hx (by positivity) p q hq, div_pow, div_pow,
      div_le_div_iff₀ (by positivity) (by positivity)]
    exact h1'
  have hhi : ((n : ℝ) / (d : ℝ)) ^ ((p : ℝ) / (q : ℝ)) < (2 * (R : ℝ) + 1) / 8192 := by
    rw [rpow_div_lt_iff hx (by positivity) p q hq, div_pow, div_pow,
      div_lt_div_iff₀ (by positivity) (by positivity)]
    exact h2'
  rw [hsub] at hlo
  generalize ((n : ℝ) / (d : ℝ)) ^ ((p : ℝ) / (q : ℝ)) = X at hlo hhi ⊢
  rw [div_le_iff₀ (by norm_num)] at hlo
  rw [lt_div_iff₀ (by norm_num)] at hhi
  rw [round_eq, Int.floor_eq_iff]
  push_cast
  constructor <;> linarith

/-- Bounds of the integer part of `256 * (v / 4096) ^ (p / q)`, decided by two comparisons
of natural numbers. -/
theorem floor_scaled_rpow_bounds (v A B p q : ℕ) (hq : q ≠ 0)
    (h1 : A ^ q * 4096 ^ p ≤ v ^ p * 256 ^ q)
    (h2 : v ^ p * 256 ^ q < B ^ q * 4096 ^ p) :
    (A : Int) ≤ ⌊256 * ((v : ℝ) / 4096) ^ ((p : ℝ) / (q : ℝ))⌋ ∧
      ⌊256 * ((v : ℝ) / 4096) ^ ((p : ℝ) / (q : ℝ))⌋ < (B : Int) := by
  have hx : (0 : ℝ) ≤ (v : ℝ) / 4096 := by positivity
  have h1' : (A : ℝ) ^ q * (4096 : ℝ) ^ p ≤ (v : ℝ) ^ p * (256 : ℝ) ^ q := by
    exact_mod_cast h1
  have h2' : (v : ℝ) ^ p * (256 : ℝ) ^ q < (B : ℝ) ^ q * (4096 : ℝ) ^ p := by
    exact_mod_cast h2
  have hlo : (A : ℝ) / 256 ≤ ((v : ℝ) / 4096) ^ ((p : ℝ) / (q : ℝ)) := by
    rw [le_rpow_div_iff hx (by positivity) p q hq, div_pow, div_pow,
      div_le_div_iff₀ (by positivity) (by positivity)]
    exact h1'
  have hhi : ((v : ℝ) / 4096) ^ ((p : ℝ) / (q : ℝ)) < (B : ℝ) / 256 := by
    rw [rpow_div_lt_iff hx (by positivity) p q hq, div_pow, div_pow,
      div_lt_div_iff₀ (by positivity) (by positivity)]
    exact h2'
  generalize ((v : ℝ) / 4096) ^ ((p : ℝ) / (q : ℝ)) = X at hlo hhi ⊢
  rw [div_le_iff₀ (by norm_num)] at hlo
  rw [lt_div_iff₀ (by norm_num)] at hhi
  constructor
  · rw [Int.le_floor]
    push_cast
    linarith
  · rw [Int.floor_lt]
    push_cast
    linarith

/-- The integer part of `256 * (v / 4096) ^ (p / q)`, decided by two comparisons of natural
numbers. -/
theorem floor_scaled_rpow (v T p q : ℕ) (hq : q ≠ 0)
    (h1 : T ^ q * 4096 ^ p ≤ v ^ p * 256 ^ q)
    (h2 : v ^ p * 256 ^ q < (T + 1) ^ q * 4096 ^ p) :
    ⌊256 * ((v : ℝ) / 4096) ^ ((p : ℝ) / (q : ℝ))⌋ = (T : Int) := by
  have h := floor_scaled_rpow_bounds v T (T + 1) p q hq h1 h2
  have h3 := h.2
  push_cast at h3
  omega

/-- An inverse table entry is `T` when the two integer comparisons of the certificate
hold. -/
theorem inverse_of_cert (v T : Nat) (hv : v < 4096)
    (h1 : T ^ 222 * 4096 ^ 100 ≤ v ^ 100 * 256 ^ 222)
    (h2 : v ^ 100 * 256 ^ 222 < (T + 1) ^ 222 * 4096 ^ 100) :
    (gst_smoothingfilter_init (⟨Real.exp, fun x y => x ^ y, float32⟩ : Libm ℝ)).inverse_gamma.getD v 0
      = T := by
  rw [inverse_getD _ hv, invgamma_exponent]
  show (trunc (256 * ((v : ℝ) / 4096) ^ (((100 : ℕ) : ℝ) / ((222 : ℕ) : ℝ)))).toNat = T
  have hx : (0 : ℝ) ≤ (v : ℝ) / 4096 := div_nonneg (Nat.cast_nonneg v) (by norm_num)
  have h0 : (0 : ℝ) ≤ 256 * ((v : ℝ) / 4096) ^ (((100 : ℕ) : ℝ) / ((222 : ℕ) : ℝ)) :=
    mul_nonneg (by norm_num) (Real.rpow_nonneg hx _)
  have hf := floor_scaled_rpow v T 100 222 (by norm_num) h1 h2
  unfold trunc
  rw [if_pos h0, hf]
  rfl

/-- A forward table entry is rounded to `R` when the two integer comparisons of the
certificate hold. -/
theorem forward_round_of_cert (i R : Nat) (hi : i < 256) (hR : 1 ≤ R)
    (h1 : (2 * R - 1) ^ 100 * 28302000 ^ 222 ≤ (100000 * i + 2801898) ^ 222 * 8192 ^ 100)
    (h2 : (100000 * i + 2801898) ^ 222 * 8192 ^ 100 < (2 * R + 1) ^ 100 * 28302000 ^ 222) :
    round ((gst_smoothingfilter_init
      (⟨Real.exp, fun x y => x ^ y, float32⟩ : Libm ℝ)).forward_gamma.getD i 0) = (R : Int) := by
  rw [forward_real i hi]
  exact round_scaled_rpow (100000 * i + 2801898) 28302000 R 222 100 (by norm_num) (by norm_num)
    hR h1 h2

/-- The round trip of every input value is the entry of `roundTripTable`. -/
theorem roundTrip_eq_table (i : Nat) (hi : i < 256) :
    roundTrip (gst_smoothingfilter_init (⟨Real.exp, fun x y => x ^ y, float32⟩ : Libm ℝ)) i
      = roundTripTable.getD i 0 ∧
    i ≤ roundTripTable.getD i 0 ∧ roundTripTable.getD i 0 ≤ i + 25 := by
  have hc := tableCertificate_all i hi
  simp only [tableCertificate, Bool.and_eq_true, decide_eq_true_eq] at hc
  obtain ⟨⟨⟨⟨⟨⟨hR, h1⟩, h2⟩, h3⟩, h4⟩, h5⟩, h6⟩ := hc
  refine ⟨?_, h5, h6⟩
  unfold roundTrip
  rw [forward_round_of_cert i _ hi hR h1 h2]
  have hv : (max 0 (min ((forwardRounded.getD i 0 : ℕ) : Int) 4095)).toNat
      = min (forwardRounded.getD i 0) 4095 := by omega
  rw [hv]
  exact inverse_of_cert _ _ (by omega) h3 h4

/-- Bounds of an inverse table entry, from two integer comparisons. -/
theorem inverse_bounds_of_cert (v A B : Nat) (hv : v < 4096)
    (h1 : A ^ 222 * 4096 ^ 100 ≤ v ^ 100 * 256 ^ 222)
    (h2 : v ^ 100 * 256 ^ 222 < B ^ 222 * 4096 ^ 100) :
    A ≤ (gst_smoothingfilter_init
        (⟨Real.exp, fun x y => x ^ y, float32⟩ : Libm ℝ)).inverse_gamma.getD v 0 ∧
      (gst_smoothingfilter_init
        (⟨Real.exp, fun x y => x ^ y, float32⟩ : Libm ℝ)).inverse_gamma.getD v 0 < B := by
  rw [inverse_getD _ hv, invgamma_exponent]
  show A ≤ (trunc (256 * ((v : ℝ) / 4096) ^ (((100 : ℕ) : ℝ) / ((222 : ℕ) : ℝ)))).toNat ∧
    (trunc (256 * ((v : ℝ) / 4096) ^ (((100 : ℕ) : ℝ) / ((222 : ℕ) : ℝ)))).toNat < B
  have hx : (0 : ℝ) ≤ (v : ℝ) / 4096 := div_nonneg (Nat.cast_nonneg v) (by norm_num)
  have h0 : (0 : ℝ) ≤ 256 * ((v : ℝ) / 4096) ^ (((100 : ℕ) : ℝ) / ((222 : ℕ) : ℝ)) :=
    mul_nonneg (by norm_num) (Real.rpow_nonneg hx _)
  have hf := floor_scaled_rpow_bounds v A B 100 222 (by norm_num) h1 h2
  unfold trunc
  rw [if_pos h0]
  generalize ⌊256 * ((v : ℝ) / 4096) ^ (((100 : ℕ) : ℝ) / ((222 : ℕ) : ℝ))⌋ = z at hf
  omega

set_option maxRecDepth 100000 in
/-- The certificate of the inverse table entries from `1083` to `1092`. -/
theorem brightnessCertificate_all : ∀ k < 10, brightnessCertificate (1083 + k) = true := by
  decide!

end RoundTrip

section ClaimTheorems5

/-- C9, counterexample. The round trip of the input value `0` through the two tables built
by `create_gamma_lut` is `25`: `forward_gamma[0] = 4096 * 0.099 ^ 2.22` rounds to `24`, and
`inverse_gamma[24] = 25`.  It differs from `0` by more than `2`. -/
theorem round_trip_zero_is_25 :
    roundTrip (gst_smoothingfilter_init (⟨Real.exp, fun x y => x ^ y, float32⟩ : Libm ℝ)) 0 = 25 ∧
      ¬ (Int.natAbs ((roundTrip (gst_smoothingfilter_init
        (⟨Real.exp, fun x y => x ^ y, float32⟩ : Libm ℝ)) 0 : Int) - 0) ≤ 2) := by
  have h := (roundTrip_eq_table 0 (by decide)).1
  have h25 : roundTripTable.getD 0 0 = 25 := by decide
  rw [h25] at h
  rw [h]
  exact ⟨rfl, by decide⟩

/-- C9, as amended. Round trip of the two gamma tables built by `create_gamma_lut`, where
`forward_gamma[i] = 4096 * (i / 283.02 + 0.099) ^ 2.22` and
`inverse_gamma[v] = floor(256 * (v / 4096) ^ (1 / 2.22))`: for every `i` in `[0, 255]`,
`inverse_gamma[clamp(round(forward_gamma[i]), 0, 4095)]` lies between `i` and `i + 25`, so it
differs from `i` by at most `25`. -/
theorem round_trip_within_25 (i : Nat) (hi : i ≤ 255) :
    (gst_smoothingfilter_init (⟨Real.exp, fun x y => x ^ y, float32⟩ : Libm ℝ)).forward_gamma.getD i 0
        = 4096 * ((i : ℝ) / FACTOR ℝ + OFFSET ℝ) ^ GAMMA ℝ ∧
      (∀ v : Nat, v < 4096 →
        (gst_smoothingfilter_init
          (⟨Real.exp, fun x y => x ^ y, float32⟩ : Libm ℝ)).inverse_gamma.getD v 0
          = ⌊256 * ((v : ℝ) / 4096) ^ (1 / GAMMA ℝ)⌋.toNat) ∧
      i ≤ roundTrip (gst_smoothingfilter_init (⟨Real.exp, fun x y => x ^ y, float32⟩ : Libm ℝ)) i ∧
      roundTrip (gst_smoothingfilter_init (⟨Real.exp, fun x y => x ^ y, float32⟩ : Libm ℝ)) i
        ≤ i + 25 := by
  have h := roundTrip_eq_table i (by omega)
  refine ⟨forward_getD _ (by omega), fun v hv => ?_, ?_, ?_⟩
  · rw [inverse_getD _ hv]
    have h0 : (0 : ℝ) ≤ 256 * ((v : ℝ) / 4096) ^ (1 / GAMMA ℝ) :=
      mul_nonneg (by norm_num)
        (Real.rpow_nonneg (div_nonneg (Nat.cast_nonneg v) (by norm_num)) _)
    show (trunc (256 * ((v : ℝ) / 4096) ^ (1 / GAMMA ℝ))).toNat = _
    unfold trunc
    rw [if_pos h0]
  · rw [h.1]
    exact h.2.1
  · rw [h.1]
    exact h.2.2

/-- Witness of C9 as amended: the input value `255`. -/
theorem round_trip_within_25_witness :
    255 ≤ roundTrip (gst_smoothingfilter_init (⟨Real.exp, fun x y => x ^ y, float32⟩ : Libm ℝ)) 255 ∧
      roundTrip (gst_smoothingfilter_init (⟨Real.exp, fun x y => x ^ y, float32⟩ : Libm ℝ)) 255
        ≤ 255 + 25 :=
  (round_trip_within_25 255 (by decide)).2.2

end ClaimTheorems5

section Brightness

theorem getD_replicate_of_lt {n i a d : Nat} (h : i < n) : (List.replicate n a).getD i d = a := by
  rw [List.getD_eq_getElem?_getD, List.getElem?_replicate, if_pos h]
  rfl

/-- The sum of the integer parts of the products of one non-negative value `g` with the
weights of a kernel whose sum is within `ε` of `1` lies between `g * (1 - ε) - s * s` and
`g * (1 + ε)`. -/
theorem sum_floor_mul_kernel (g ε : ℝ) (hg : 0 ≤ g) (K : List ℝ) (s : Nat)
    (hK : |∑ i in Finset.range s, ∑ j in Finset.range s, K.getD (i * s + j) 0 - 1| ≤ ε) :
    g * (1 - ε) - (s * s : ℕ) ≤ ((∑ i in Finset.range s, ∑ j in Finset.range s,
        ⌊g * K.getD (i * s + j) 0⌋ : Int) : ℝ) ∧
      ((∑ i in Finset.range s, ∑ j in Finset.range s,
        ⌊g * K.getD (i * s + j) 0⌋ : Int) : ℝ) ≤ g * (1 + ε) := by
  have hsum : ∑ i in Finset.range s, ∑ j in Finset.range s, g * K.getD (i * s + j) 0
      = g * ∑ i in Finset.range s, ∑ j in Finset.range s, K.getD (i * s + j) 0 := by
    simp only [← Finset.mul_sum]
  rw [abs_le] at hK
  generalize ∑ i in Finset.range s, ∑ j in Finset.range s, K.getD (i * s + j) 0 = Ks
    at hsum hK
  have hlo : g * (1 - ε) ≤ g * Ks := mul_le_mul_of_nonneg_left (by linarith [hK.1]) hg
  have hhi : g * Ks ≤ g * (1 + ε) := mul_le_mul_of_nonneg_left (by linarith [hK.2]) hg
  push_cast
  constructor
  · have h1 : ∑ i in Finset.range s, ∑ j in Finset.range s, (g * K.getD (i * s + j) 0 - 1)
        ≤ ∑ i in Finset.range s, ∑ j in Finset.range s, (⌊g * K.getD (i * s + j) 0⌋ : ℝ) :=
      Finset.sum_le_sum fun i _ => Finset.sum_le_sum fun j _ =>
        le_of_lt (Int.sub_one_lt_floor _)
    have h2 : ∑ i in Finset.range s, ∑ j in Finset.range s, (g * K.getD (i * s + j) 0 - 1)
        = g * Ks - (s : ℝ) * (s : ℝ) := by
      simp only [Finset.sum_sub_distrib, Finset.sum_const, Finset.card_range, nsmul_eq_mul,
        mul_one, hsum]
    linarith
  · have h1 : ∑ i in Finset.range s, ∑ j in Finset.range s, (⌊g * K.getD (i * s + j) 0⌋ : ℝ)
        ≤ ∑ i in Finset.range s, ∑ j in Finset.range s, g * K.getD (i * s + j) 0 :=
      Finset.sum_le_sum fun i _ => Finset.sum_le_sum fun j _ => Int.floor_le _
    linarith

/-- The forward table entry of the input value `128` lies in `[1091.5, 1092.5)`. -/
theorem forward_128_bounds :
    (10915 / 10 : ℝ) ≤ (gst_smoothingfilter_init
        (⟨Real.exp, fun x y => x ^ y, float32⟩ : Libm ℝ)).forward_gamma.getD 128 0 ∧
      (gst_smoothingfilter_init
        (⟨Real.exp, fun x y => x ^ y, float32⟩ : Libm ℝ)).forward_gamma.getD 128 0 < 10925 / 10 := by
  have hc := tableCertificate_all 128 (by decide)
  simp only [tableCertificate, Bool.and_eq_true, decide_eq_true_eq] at hc
  obtain ⟨⟨⟨⟨⟨⟨hR, h1⟩, h2⟩, -⟩, -⟩, -⟩, -⟩ := hc
  have hr := forward_round_of_cert 128 _ (by decide) hR h1 h2
  have h1092 : forwardRounded.getD 128 0 = 1092 := by decide
  rw [h1092, round_eq, Int.floor_eq_iff] at hr
  push_cast at hr
  constructor <;> linarith [hr.1, hr.2]

end Brightness

section Brightness2

set_option maxRecDepth 10000 in
/-- C8, the code at the failing input. On a frame of 10 by 10 pixels in which every pixel is
`(128, 128, 128)`, with the default `kernelsize = 1` and `sigma = 1.5`, the chain function
returns and every channel of every interior pixel (`x < 7`, `y < 7`) is `140` or `141`: the
value is brightened by at least `12`, not kept within `1` of `128`. -/
theorem uniform_gray_brightened :
    ∃ r, gst_smoothingfilter_chain (⟨Real.exp, fun x y => x ^ y, float32⟩ : Libm ℝ)
        (gst_smoothingfilter_sink_event
          (gst_smoothingfilter_init (⟨Real.exp, fun x y => x ^ y, float32⟩ : Libm ℝ))
          (some 10) (some 10)) (List.replicate 300 128) = some r ∧
      ∀ x y c : Nat, x < 7 → y < 7 → c < 3 →
        ∃ v, r.img[byteIndex 10 x y c]? = some v ∧ 140 ≤ v ∧ v ≤ 141 := by
  have hreach : Reachable (⟨Real.exp, fun x y => x ^ y, float32⟩ : Libm ℝ)
      (gst_smoothingfilter_sink_event
        (gst_smoothingfilter_init (⟨Real.exp, fun x y => x ^ y, float32⟩ : Libm ℝ))
        (some 10) (some 10)) := Reachable.caps (some 10) (some 10) Reachable.init
  have hinv := hreach.invariant
  have hk : (gst_smoothingfilter_sink_event
      (gst_smoothingfilter_init (⟨Real.exp, fun x y => x ^ y, float32⟩ : Libm ℝ))
      (some 10) (some 10)).kernelsize = 1 := rfl
  have hw : (gst_smoothingfilter_sink_event
      (gst_smoothingfilter_init (⟨Real.exp, fun x y => x ^ y, float32⟩ : Libm ℝ))
      (some 10) (some 10)).width = 10 := rfl
  have hh : (gst_smoothingfilter_sink_event
      (gst_smoothingfilter_init (⟨Real.exp, fun x y => x ^ y, float32⟩ : Libm ℝ))
      (some 10) (some 10)).height = 10 := rfl
  obtain ⟨r, h1, -, -, h4, -⟩ := chain_pixels real_sound hinv (by rw [hk]; decide)
    (List.replicate 300 128) (by decide) (by decide) (by decide)
  refine ⟨r, h1, fun x y c hx hy hc => ?_⟩
  have hpix := h4 x y c (by rw [hw, hk]; omega) (by rw [hh, hk]; omega) hc
  rw [hk, hw, hinv.forward, hinv.inverse] at hpix
  have hs3 : (2 * (1 : Int) + 1).toNat = 3 := by decide
  rw [hs3] at hpix
  have hterm : ∀ i ∈ Finset.range 3, ∀ j ∈ Finset.range 3,
      ⌊(gst_smoothingfilter_init (⟨Real.exp, fun x y => x ^ y, float32⟩ : Libm ℝ)).forward_gamma.getD
          (clamp_in ((List.replicate 300 128).getD (byteIndex 10 (x + j) (y + i) c) 0)) 0
        * (gaussKernel (⟨Real.exp, fun x y => x ^ y, float32⟩ : Libm ℝ) 1
            (gst_smoothingfilter_sink_event
              (gst_smoothingfilter_init (⟨Real.exp, fun x y => x ^ y, float32⟩ : Libm ℝ))
              (some 10) (some 10)).sigma).getD (i * 3 + j) 0⌋
      = ⌊(gst_smoothingfilter_init (⟨Real.exp, fun x y => x ^ y, float32⟩ : Libm ℝ)).forward_gamma.getD
          128 0
        * (gaussKernel (⟨Real.exp, fun x y => x ^ y, float32⟩ : Libm ℝ) 1
            (gst_smoothingfilter_sink_event
              (gst_smoothingfilter_init (⟨Real.exp, fun x y => x ^ y, float32⟩ : Libm ℝ))
              (some 10) (some 10)).sigma).getD (i * 3 + j) 0⌋ := by
    intro i hi j hj
    rw [Finset.mem_range] at hi hj
    have hidx : byteIndex 10 (x + j) (y + i) c < 300 := by
      unfold byteIndex
      omega
    rw [getD_replicate_of_lt hidx, clamp_in_of_le (by decide)]
  rw [Finset.sum_congr rfl fun i hi => Finset.sum_congr rfl fun j hj => hterm i hi j hj] at hpix
  have hKsum := gaussKernel_double_sum real_sound (show (0 : Int) ≤ 1 by decide)
    (show (1 : Int) ≤ 2 by decide)
    (gst_smoothingfilter_sink_event
      (gst_smoothingfilter_init (⟨Real.exp, fun x y => x ^ y, float32⟩ : Libm ℝ))
      (some 10) (some 10)).sigma
  rw [hs3] at hKsum
  have hg := forward_128_bounds
  have hb := sum_floor_mul_kernel
    ((gst_smoothingfilter_init (⟨Real.exp, fun x y => x ^ y, float32⟩ : Libm ℝ)).forward_gamma.getD 128 0)
    (3 / 2 ^ 24) (by linarith [hg.1]) _ 3 hKsum
  have hε : (3 : ℝ) / 2 ^ 24 ≤ 1 / 5000000 := by norm_num
  have hε0 : (0 : ℝ) ≤ 3 / 2 ^ 24 := by positivity
  generalize (∑ i in Finset.range 3, ∑ j in Finset.range 3,
      ⌊(gst_smoothingfilter_init (⟨Real.exp, fun x y => x ^ y, float32⟩ : Libm ℝ)).forward_gamma.getD
          128 0
        * (gaussKernel (⟨Real.exp, fun x y => x ^ y, float32⟩ : Libm ℝ) 1
            (gst_smoothingfilter_sink_event
              (gst_smoothingfilter_init (⟨Real.exp, fun x y => x ^ y, float32⟩ : Libm ℝ))
              (some 10) (some 10)).sigma).getD (i * 3 + j) 0⌋) = S at hpix hb
  have hS1 : (1083 : Int) ≤ S := by
    have : ((1082 : Int) : ℝ) < (S : ℝ) := by
      push_cast
      have h9 : (((3 * 3 : ℕ)) : ℝ) = 9 := by norm_num
      rw [h9] at hb
      nlinarith [hb.1, hg.1, hg.2]
    have := Int.cast_lt.1 this
    omega
  have hS2 : S ≤ (1092 : Int) := by
    have : (S : ℝ) < ((1093 : Int) : ℝ) := by
      push_cast
      nlinarith [hb.2, hg.2, hg.1]
    have := Int.cast_lt.1 this
    omega
  have hv : min S.toNat 4095 = 1083 + (S.toNat - 1083) := by omega
  have hk10 : S.toNat - 1083 < 10 := by omega
  rw [hv] at hpix
  have hc := brightnessCertificate_all (S.toNat - 1083) hk10
  simp only [brightnessCertificate, Bool.and_eq_true, decide_eq_true_eq] at hc
  have hig := inverse_bounds_of_cert (1083 + (S.toNat - 1083)) 140 142 (by omega) hc.1 hc.2
  refine ⟨_, hpix, ?_, ?_⟩ <;> omega

end Brightness2

section OutOfPlace

variable {F : Type} [LinearOrderedField F] [FloorRing F]

end OutOfPlace

section ClaimOutOfPlace

variable {F : Type} [LinearOrderedField F] [FloorRing F]

end ClaimOutOfPlace

section ClaimBounds

variable {F : Type} [LinearOrderedField F] [FloorRing F]

end ClaimBounds

/-- The base `i / FACTOR + OFFSET` of the forward table lies in `(0, 1]` for an index
`i ≤ 255`, in every ordered field. -/
theorem forward_base_range {F : Type} [LinearOrderedField F] {i : Nat} (hi : i ≤ 255) :
    0 < (i : F) / FACTOR F + OFFSET F ∧ (i : F) / FACTOR F + OFFSET F ≤ 1 := by
  have hi' : (i : F) ≤ 255 := by exact_mod_cast hi
  have h0 : (0 : F) ≤ (i : F) := Nat.cast_nonneg i
  unfold FACTOR OFFSET
  constructor
  · have : (0 : F) ≤ (i : F) / (28302 / 100) := div_nonneg h0 (by norm_num)
    linarith [show (0 : F) < 99 / 1000 by norm_num]
  · have h1 : (i : F) / (28302 / 100) ≤ 255 / (28302 / 100) :=
      div_le_div_of_nonneg_right hi' (by norm_num)
    have h2 : (255 : F) / (28302 / 100) + 99 / 1000 ≤ 1 := by norm_num
    linarith

/-- Claim C13.  With the real power function, for every index `i` in `[0, 255]` the base
`i / 283.02 + 0.099` of the forward table is positive and at most `1`, the entry
`forward_gamma[i]` built by `create_gamma_lut` is `4096 * (i / 283.02 + 0.099) ^ 2.22`, and
this entry is positive and at most `4096`. -/
theorem forward_gamma_base_le_one (i : Nat) (hi : i ≤ 255) :
    0 < (i : ℝ) / FACTOR ℝ + OFFSET ℝ ∧ (i : ℝ) / FACTOR ℝ + OFFSET ℝ ≤ 1 ∧
    (gst_smoothingfilter_init (⟨Real.exp, fun x y => x ^ y, float32⟩ : Libm ℝ)).forward_gamma[i]?
      = some (4096 * ((i : ℝ) / (28302 / 100) + 99 / 1000) ^ ((222 : ℝ) / 100)) ∧
    0 < (gst_smoothingfilter_init (⟨Real.exp, fun x y => x ^ y, float32⟩ : Libm ℝ)).forward_gamma.getD i 0
      ∧
    (gst_smoothingfilter_init (⟨Real.exp, fun x y => x ^ y, float32⟩ : Libm ℝ)).forward_gamma.getD i 0
      ≤ 4096 := by
  obtain ⟨hpos, hle⟩ := forward_base_range (F := ℝ) hi
  have hlt : i < 256 := by omega
  have hget := forward_getD (⟨Real.exp, fun x y => x ^ y, float32⟩ : Libm ℝ) hlt
  have hlen : (gst_smoothingfilter_init
      (⟨Real.exp, fun x y => x ^ y, float32⟩ : Libm ℝ)).forward_gamma.length = 256 := by
    simp [gst_smoothingfilter_init, create_gamma_lut, IN_RANGE]
  have hG : (0 : ℝ) ≤ GAMMA ℝ := by unfold GAMMA; norm_num
  refine ⟨hpos, hle, ?_, ?_, ?_⟩
  · have h1 : (gst_smoothingfilter_init
        (⟨Real.exp, fun x y => x ^ y, float32⟩ : Libm ℝ)).forward_gamma[i]?
        = some ((gst_smoothingfilter_init
          (⟨Real.exp, fun x y => x ^ y, float32⟩ : Libm ℝ)).forward_gamma.getD i 0) := by
      rw [List.getD_eq_getElem?_getD, List.getElem?_eq_getElem (by rw [hlen]; exact hlt)]
      rfl
    rw [h1, hget]
    rfl
  · rw [hget]
    exact mul_pos (by norm_num) (Real.rpow_pos_of_pos hpos _)
  · rw [hget]
    have : ((i : ℝ) / FACTOR ℝ + OFFSET ℝ) ^ (GAMMA ℝ) ≤ 1 :=
      Real.rpow_le_one hpos.le hle hG
    show 4096 * ((i : ℝ) / FACTOR ℝ + OFFSET ℝ) ^ (GAMMA ℝ) ≤ 4096
    linarith

/-- The statement of claim C13 at the last index `255`, where the base is closest to `1`. -/
theorem forward_gamma_base_le_one_witness :
    0 < ((255 : ℕ) : ℝ) / FACTOR ℝ + OFFSET ℝ ∧ ((255 : ℕ) : ℝ) / FACTOR ℝ + OFFSET ℝ ≤ 1 ∧
    (gst_smoothingfilter_init (⟨Real.exp, fun x y => x ^ y, float32⟩ : Libm ℝ)).forward_gamma[255]?
      = some (4096 * (((255 : ℕ) : ℝ) / (28302 / 100) + 99 / 1000) ^ ((222 : ℝ) / 100)) ∧
    0 < (gst_smoothingfilter_init
      (⟨Real.exp, fun x y => x ^ y, float32⟩ : Libm ℝ)).forward_gamma.getD 255 0 ∧
    (gst_smoothingfilter_init (⟨Real.exp, fun x y => x ^ y, float32⟩ : Libm ℝ)).forward_gamma.getD 255 0
      ≤ 4096 :=
  forward_gamma_base_le_one 255 (by decide)

end Smoothing
